import Mathlib

/-!
Verification of the LALR(1) parsing-table generator (`parsing/lalr_one.py`).

The file shallowly embeds the module: `closure`, `goto`,
`get_canonical_collection` (seed, spontaneous generation, propagation
fixed point, assembly) and `ParsingTable.__setup_from_grammar`
(ACTION/GOTO assembly).  The external collaborators `Grammar` and
`lr_zero` (the LR(0) automaton) are not part of the module; they are
modelled from their documented contracts and passed as parameters.

Python sets become `Finset`, dictionaries become functions, the two
unbounded `while` loops (`closure`'s worklist and the propagation fixed
point) become fuelled recursions whose canonical fuel is proved
sufficient below.
-/

namespace LalrOne

/-- Grammar symbols: terminals are Python strings, nonterminals are
references to grammar objects (modelled by an integer id standing for the
identity of the Python object). -/
inductive Sym where
  | t : String → Sym
  | n : Nat → Sym
deriving DecidableEq

/-- An LR(0) item `(production index, dot position)`. -/
abbrev Item := Nat × Nat

/-- A lookahead item `((production index, dot position), lookahead)`. -/
abbrev LItem := Item × String

/-- Modelled from the spec: the external `Grammar` collaborator contract —
ordered `productions` (index 0 is the augmented start production),
`terminals`, `nonterms` (`nonterms[0]` is the augmented start symbol),
`nonterm_offset`, the per-nonterminal production count
(`len(nt.productions)`), `end_of_input()` (`eoi`), `free_symbol()`
(`free`) and `first_set`.  `first_set` returns terminals as `some t` and
the empty-derivation marker (Python `None`) as `none`. -/
structure Grammar where
  productions : List (Nat × List Sym)
  terminals : List String
  nonterms : List Nat
  numProds : Nat → Nat
  nonterm_offset : Nat → Nat
  eoi : String
  free : String
  firstSet : List Sym → Finset (Option String)

namespace Grammar

/-- `pname, pbody = gr.productions[prod_index]`, body component. -/
def prodBody (gr : Grammar) (p : Nat) : List Sym :=
  (gr.productions.getD p (0, [])).2

end Grammar

/-- The terminals of a `first_set` result: `following_terminals =
gr.first_set(following_symbols) - {None}`. -/
def somes (s : Finset (Option String)) : Finset String :=
  s.biUnion fun o => o.elim ∅ (fun a => {a})

/-- The new items one item `x` contributes inside `closure`'s loop body
(lines 194–209): if the dot of `x` is in front of a nonterminal `nt` of
the grammar, all items `((nonterm_offset nt + idx, 0), term)` with
`idx < len(nt.productions)` and
`term ∈ first_set(pbody[dot+1:] + [lookahead]) - {None}`. -/
def closureCandidates (gr : Grammar) (x : LItem) : Finset LItem :=
  let pbody := gr.prodBody x.1.1
  if x.1.2 = pbody.length then ∅
  else
    match pbody.getD x.1.2 (Sym.t "") with
    | Sym.t _ => ∅
    | Sym.n nt =>
      if nt ∈ gr.nonterms then
        (Finset.range (gr.numProds nt)).biUnion fun idx =>
          (somes (gr.firstSet (pbody.drop (x.1.2 + 1) ++ [Sym.t x.2]))).image
            fun term => ((gr.nonterm_offset nt + idx, 0), term)
      else ∅

/-- The worklist loop of `closure` (lines 191–211): each pass adds to
`result` the candidates of the `current` worklist that are not yet in
`result`, which become the next worklist.  The Python loop runs until the
worklist is empty; here the recursion is fuelled and `closure` passes a
fuel that provably suffices. -/
def closureAux (gr : Grammar) : Nat → Finset LItem → Finset LItem → Finset LItem
  | 0, result, _ => result
  | fuel + 1, result, current =>
    if current = ∅ then result
    else
      let news := current.biUnion (closureCandidates gr) \ result
      closureAux gr fuel (result ∪ news) news

/-- Production indices that `closure` can ever generate: `nonterm_offset nt
+ idx` for a nonterminal `nt` of the grammar and `idx <
len(nt.productions)`. -/
def prodUniverse (gr : Grammar) : Finset Nat :=
  gr.nonterms.toFinset.biUnion fun nt =>
    (Finset.range (gr.numProds nt)).image fun idx => gr.nonterm_offset nt + idx

/-- Lookaheads reachable from a start set `I`: lookaheads of `I` and
grammar terminals. -/
def laUniverse (gr : Grammar) (I : Finset LItem) : Finset String :=
  I.image Prod.snd ∪ gr.terminals.toFinset

/-- A finite over-approximation of everything `closure` starting from `I`
can put into its result. -/
def closureUniverse (gr : Grammar) (I : Finset LItem) : Finset LItem :=
  I ∪ (prodUniverse gr ×ˢ ({0} : Finset Nat)) ×ˢ laUniverse gr I

/-- Fuel that suffices for `closureAux` to reach its fixed point. -/
def closureFuel (gr : Grammar) (I : Finset LItem) : Nat :=
  (closureUniverse gr I).card + 1

/-- `closure(gr, item_set)` (lines 187–213). -/
def closure (gr : Grammar) (item_set : Finset LItem) : Finset LItem :=
  closureAux gr (closureFuel gr item_set) item_set item_set

/-- The items of `item_set` whose dot points at `sym` (`dot != len(pbody)
and pbody[dot] == sym`), shared by `goto` (lines 219–222) and the
spontaneous-generation scan (lines 143–146). -/
def transItems (gr : Grammar) (item_set : Finset LItem) (sym : Sym) : Finset LItem :=
  item_set.filter fun x =>
    x.1.2 ≠ (gr.prodBody x.1.1).length ∧
    (gr.prodBody x.1.1).getD x.1.2 (Sym.t "") = sym

/-- The pre-closure kernel of `goto` (lines 217–225): matching items of
`item_set`, advanced one position past `inp`. -/
def advSet (gr : Grammar) (item_set : Finset LItem) (inp : Sym) : Finset LItem :=
  (transItems gr item_set inp).image fun x => ((x.1.1, x.1.2 + 1), x.2)

/-- `goto(gr, item_set, inp)` (lines 216–228). -/
def goto (gr : Grammar) (item_set : Finset LItem) (inp : Sym) : Finset LItem :=
  closure gr (advSet gr item_set inp)

/-- Modelled from the spec: the object returned by the external
`lr_zero.get_automaton(gr)` — the ordered list `states` of LR(0) item
sets, and the transition dictionary `goto` as its list of
`((state id, symbol), state id)` pairs. -/
structure Dfa where
  states : List (List Item)
  gotoPairs : List ((Nat × Sym) × Nat)

namespace Dfa

/-- `n_states = len(kstates)` (line 125). -/
def n (dfa : Dfa) : Nat := dfa.states.length

/-- `dfa.states[i]` (total, defaulting to the empty state). -/
def stateD (dfa : Dfa) (i : Nat) : List Item := dfa.states.getD i []

/-- Dictionary lookup in `dfa.goto`. -/
def gotoFind (dfa : Dfa) (k : Nat × Sym) : Option Nat :=
  (dfa.gotoPairs.find? fun pr => decide (pr.1 = k)).map Prod.snd

/-- `dfa.goto[(i_state_id, sym)]` (line 139), total with default 0. -/
def gotoD (dfa : Dfa) (k : Nat × Sym) : Nat := (dfa.gotoFind k).getD 0

/-- `state_symbols = [x[1] for x, y in dfa.goto.items() if x[0] ==
i_state_id]` (line 133). -/
def stateSymbols (dfa : Dfa) (i : Nat) : List Sym :=
  (dfa.gotoPairs.filter fun pr => decide (pr.1.1 = i)).map fun pr => pr.1.2

end Dfa

/-- Modelled from the spec: `lr_zero.kernels(st)` — the kernel-item subset
of a state: the items not solely introduced by closure, i.e. the items
whose dot is not at the start of the body, plus the augmented start item
`(0, 0)`. -/
def kernels (st : List Item) : List Item :=
  st.filter fun it => decide (it.2 ≠ 0 ∨ it.1 = 0)

/-- `kstates = [lr_zero.kernels(st) for st in dfa.states]` (line 124). -/
def kstatesFn (dfa : Dfa) (i : Nat) : List Item := kernels (dfa.stateD i)

/-- A propagation-table cell index: `(state id, kernel item)`. -/
abbrev Cell := Nat × Item

/-- `closure(gr, [(i_item, gr.free_symbol())])` (line 136). -/
def closureSeed (gr : Grammar) (it : Item) : Finset LItem :=
  closure gr {(it, gr.free)}

/-- The propagation edges recorded at lines 132–150: for each state `i`,
kernel item `i_item`, outgoing symbol `sym` with target `j`, and item of
`closure(gr, [(i_item, free)])` whose dot points at `sym` and whose
lookahead is the free marker, the edge `(i, i_item) → (j, advanced
item)`. -/
def propEdges (gr : Grammar) (dfa : Dfa) : Finset (Cell × Cell) :=
  (Finset.range dfa.n).biUnion fun i =>
    (kstatesFn dfa i).toFinset.biUnion fun iItem =>
      (dfa.stateSymbols i).toFinset.biUnion fun sym =>
        ((transItems gr (closureSeed gr iItem) sym).filter fun x => x.2 = gr.free).image
          fun x => ((i, iItem), ((dfa.gotoD (i, sym), (x.1.1, x.1.2 + 1)) : Cell))

/-- The spontaneous lookaheads recorded at lines 132–152: as for
`propEdges`, but for closure items whose lookahead differs from the free
marker; the concrete lookahead is attached to the advanced item's cell. -/
def spontLA (gr : Grammar) (dfa : Dfa) : Finset (Cell × String) :=
  (Finset.range dfa.n).biUnion fun i =>
    (kstatesFn dfa i).toFinset.biUnion fun iItem =>
      (dfa.stateSymbols i).toFinset.biUnion fun sym =>
        ((transItems gr (closureSeed gr iItem) sym).filter fun x => x.2 ≠ gr.free).image
          fun x => (((dfa.gotoD (i, sym), (x.1.1, x.1.2 + 1)) : Cell), x.2)

/-- The lookahead table after the end-of-input seed (line 130) and
spontaneous generation (lines 132–152), before the propagation fixed
point. -/
def initTable (gr : Grammar) (dfa : Dfa) : Cell → Finset String :=
  fun c =>
    (if c = ((0, (0, 0)) : Cell) then ({gr.eoi} : Finset String) else ∅) ∪
      ((spontLA gr dfa).filter fun pr => pr.1 = c).image Prod.snd

/-- The propagation-table cells in iteration order (lines 160–161): states
in order, each state's kernel items. -/
def cellList (dfa : Dfa) : List Cell :=
  (List.range dfa.n).flatMap fun i => (kstatesFn dfa i).map fun k => (i, k)

/-- Lines 163–167 for a single source cell `c`: union `L c` into every
cell `c` propagates to. -/
def processCell (E : Finset (Cell × Cell)) (L : Cell → Finset String) (c : Cell) :
    Cell → Finset String :=
  fun d => if (c, d) ∈ E then L d ∪ L c else L d

/-- One pass of the propagation loop (lines 160–170). -/
def pass (gr : Grammar) (dfa : Dfa) (L : Cell → Finset String) : Cell → Finset String :=
  (cellList dfa).foldl (processCell (propEdges gr dfa)) L

/-- The `repeat` fixed-point loop of lines 156–170, fuelled: run a pass;
if no kernel item's lookahead set changed, stop, else loop. -/
def propagateAux (gr : Grammar) (dfa : Dfa) :
    Nat → (Cell → Finset String) → Cell → Finset String
  | 0, L => L
  | fuel + 1, L =>
    let L' := pass gr dfa L
    if (cellList dfa).all (fun c => decide (L' c = L c)) then L
    else propagateAux gr dfa fuel L'

/-- The terminal alphabet together with the end-of-input marker. -/
def alphaBound (gr : Grammar) : Finset String :=
  gr.terminals.toFinset ∪ {gr.eoi}

/-- Fuel for the propagation loop: (number of kernel items) × (terminal
alphabet size, end-of-input included) + 1 passes. -/
def propFuel (gr : Grammar) (dfa : Dfa) : Nat :=
  (cellList dfa).toFinset.card * (alphaBound gr).card + 1

/-- The resolved lookahead table: the fixed point of the propagation
loop. -/
def lookaheadTable (gr : Grammar) (dfa : Dfa) : Cell → Finset String :=
  propagateAux gr dfa (propFuel gr dfa) (initTable gr dfa)

/-- `get_canonical_collection(gr)` (lines 118–184).  The LR(0) automaton,
produced in the source by the external `lr_zero.get_automaton(gr)`, is
passed explicitly.  For each state: pair every kernel item with each of
its resolved lookaheads, then close (lines 174–182). -/
def get_canonical_collection (gr : Grammar) (dfa : Dfa) : List (Finset LItem) :=
  (List.range dfa.n).map fun i =>
    closure gr <|
      (kstatesFn dfa i).toFinset.biUnion fun k =>
        (lookaheadTable gr dfa (i, k)).image fun sym => (k, sym)

/-- `ccol[s]`, total with default `∅`. -/
def ccolGet (gr : Grammar) (dfa : Dfa) (s : Nat) : Finset LItem :=
  (get_canonical_collection gr dfa).getD s ∅

/-- A parsing-table entry: `('shift', state_id)`, `('reduce',
production_index)` or `('accept', '')`; an error is the empty entry
set. -/
inductive Entry where
  | shift : Nat → Entry
  | reduce : Nat → Entry
  | accept : Entry
deriving DecidableEq

/-- `__drop_lalr_one_itemset_lookaheads(itemset)` (lines 83–85). -/
def dropLookaheads (itemset : Finset LItem) : Finset Item :=
  itemset.image Prod.fst

/-- `id_from_lr_one_state(itemset)` (lines 41–45): the `id_from_core`
dictionary maps each core to the last canonical-collection index having
that core; an absent core (which raises in Python) defaults to 0. -/
def id_from_lr_one_state (gr : Grammar) (dfa : Dfa) (itemset : Finset LItem) : Nat :=
  ((List.range dfa.n).filter fun i =>
      decide (dropLookaheads (ccolGet gr dfa i) = dropLookaheads itemset)).getLastD 0

/-- The ACTION table of `__setup_from_grammar` (lines 48–73):
`actionTable gr dfa s t` is the entry set `action[s][t]`. -/
def actionTable (gr : Grammar) (dfa : Dfa) (s : Nat) (t : String) : Finset Entry :=
  (ccolGet gr dfa s).biUnion fun x =>
    let pbody := gr.prodBody x.1.1
    if x.1.2 < pbody.length then
      match pbody.getD x.1.2 (Sym.t "") with
      | Sym.n _ => ∅
      | Sym.t terminal =>
        let next_state := goto gr (ccolGet gr dfa s) (Sym.t terminal)
        if next_state = ∅ then ∅
        else if terminal = t then
          {Entry.shift (id_from_lr_one_state gr dfa next_state)}
        else ∅
    else if x.1.1 = 0 then
      if t = gr.eoi then {Entry.accept} else ∅
    else if x.2 = t then {Entry.reduce x.1.1} else ∅

/-- The GOTO table of `__setup_from_grammar` (lines 75–81):
`gotoTable gr dfa s nt` is `goto[s][nt]` (`none` encodes Python's
`None`). -/
def gotoTable (gr : Grammar) (dfa : Dfa) (s : Nat) (nt : Nat) : Option Nat :=
  let next_state := goto gr (ccolGet gr dfa s) (Sym.n nt)
  if next_state = ∅ then none
  else some (id_from_lr_one_state gr dfa next_state)

/-! ### Basic lemmas about `somes` and `closureCandidates` -/

theorem mem_somes {s : Finset (Option String)} {a : String} :
    a ∈ somes s ↔ some a ∈ s := by
  simp only [somes, Finset.mem_biUnion]
  constructor
  · rintro ⟨o, ho, h⟩; cases o <;> simp_all
  · intro h; exact ⟨some a, h, by simp⟩

/-- Unfolding characterization of one loop body of `closure`. -/
theorem mem_closureCandidates {gr : Grammar} {x y : LItem} :
    y ∈ closureCandidates gr x ↔
      ∃ nt, x.1.2 ≠ (gr.prodBody x.1.1).length ∧
        (gr.prodBody x.1.1).getD x.1.2 (Sym.t "") = Sym.n nt ∧
        nt ∈ gr.nonterms ∧
        ∃ idx < gr.numProds nt, ∃ a,
          some a ∈ gr.firstSet ((gr.prodBody x.1.1).drop (x.1.2 + 1) ++ [Sym.t x.2]) ∧
          y = ((gr.nonterm_offset nt + idx, 0), a) := by
  constructor
  · intro hy
    simp only [closureCandidates] at hy
    split at hy
    · exact absurd hy (Finset.not_mem_empty _)
    · rename_i h1
      split at hy
      · exact absurd hy (Finset.not_mem_empty _)
      · rename_i nt h2
        split at hy
        · rename_i h3
          rw [Finset.mem_biUnion] at hy
          obtain ⟨idx, hidx, hy⟩ := hy
          rw [Finset.mem_image] at hy
          obtain ⟨a, ha, hya⟩ := hy
          rw [mem_somes] at ha
          exact ⟨nt, h1, h2, h3, idx, Finset.mem_range.1 hidx, a, ha, hya.symm⟩
        · exact absurd hy (Finset.not_mem_empty _)
  · rintro ⟨nt, h1, h2, h3, idx, hidx, a, ha, rfl⟩
    simp only [closureCandidates, h2, if_neg h1, if_pos h3, Finset.mem_biUnion,
      Finset.mem_image, mem_somes]
    exact ⟨idx, Finset.mem_range.2 hidx, a, ha, rfl⟩

/-- Predicate: `S` is closed under `closure`'s expansion rule. -/
def IsClosed (gr : Grammar) (S : Finset LItem) : Prop :=
  ∀ x ∈ S, closureCandidates gr x ⊆ S

theorem closureAux_nil (gr : Grammar) (f : Nat) (r : Finset LItem) :
    closureAux gr f r ∅ = r := by
  cases f <;> simp [closureAux]

theorem subset_closureAux (gr : Grammar) :
    ∀ (f : Nat) (r c : Finset LItem), r ⊆ closureAux gr f r c
  | 0, r, c => by simp [closureAux]
  | f + 1, r, c => by
    by_cases h : c = ∅
    · simp [closureAux, h]
    · simp only [closureAux, h, if_false]
      exact Finset.Subset.trans Finset.subset_union_left (subset_closureAux gr f _ _)

theorem closureAux_subset (gr : Grammar) {T : Finset LItem} (hT : IsClosed gr T) :
    ∀ (f : Nat) (r c : Finset LItem), r ⊆ T → c ⊆ T → closureAux gr f r c ⊆ T
  | 0, r, c, hr, _ => by simpa [closureAux] using hr
  | f + 1, r, c, hr, hc => by
    by_cases h : c = ∅
    · simpa [closureAux, h] using hr
    · simp only [closureAux, h, if_false]
      refine closureAux_subset gr hT f _ _ ?_ ?_
      · refine Finset.union_subset hr ?_
        intro y hy
        rw [Finset.mem_sdiff, Finset.mem_biUnion] at hy
        obtain ⟨⟨z, hz, hyz⟩, -⟩ := hy
        exact hT z (hc hz) hyz
      · intro y hy
        rw [Finset.mem_sdiff, Finset.mem_biUnion] at hy
        obtain ⟨⟨z, hz, hyz⟩, -⟩ := hy
        exact hT z (hc hz) hyz

/-- Generic invariant principle for the `closure` worklist loop. -/
theorem closureAux_induct (gr : Grammar) (P : LItem → Prop)
    (hstep : ∀ x, P x → ∀ y ∈ closureCandidates gr x, P y) :
    ∀ (f : Nat) (r c : Finset LItem), (∀ x ∈ r, P x) → (∀ x ∈ c, P x) →
      ∀ x ∈ closureAux gr f r c, P x
  | 0, r, c, hr, _ => by simpa [closureAux] using hr
  | f + 1, r, c, hr, hc => by
    by_cases h : c = ∅
    · simpa [closureAux, h] using hr
    · simp only [closureAux, h, if_false]
      have hnews : ∀ x ∈ c.biUnion (closureCandidates gr) \ r, P x := by
        intro y hy
        rw [Finset.mem_sdiff, Finset.mem_biUnion] at hy
        obtain ⟨⟨z, hz, hyz⟩, -⟩ := hy
        exact hstep z (hc z hz) y hyz
      refine closureAux_induct gr P hstep f _ _ ?_ hnews
      intro y hy
      rcases Finset.mem_union.1 hy with h' | h'
      · exact hr y h'
      · exact hnews y h'

/-- Core lemma: with any invariant universe `U` whose candidate expansion
stays inside `U`, enough fuel makes the worklist loop reach a closed
result, and extra fuel no longer changes it. -/
theorem closureAux_closed (gr : Grammar) {U : Finset LItem}
    (hU : ∀ x ∈ U, closureCandidates gr x ⊆ U) :
    ∀ (f : Nat) (r c : Finset LItem), r ⊆ U → c ⊆ r →
      (∀ x ∈ r, x ∉ c → closureCandidates gr x ⊆ r) →
      (U \ r).card < f →
      IsClosed gr (closureAux gr f r c) ∧
        ∀ extra, closureAux gr (f + extra) r c = closureAux gr f r c := by
  intro f
  induction f with
  | zero => intro r c _ _ _ hcard; exact absurd hcard (Nat.not_lt_zero _)
  | succ fuel ih =>
    intro r c hrU hcr hproc hcard
    by_cases hc : c = ∅
    · subst hc
      constructor
      · rw [closureAux_nil]
        intro x hx
        exact hproc x hx (by simp)
      · intro extra; rw [closureAux_nil, closureAux_nil]
    · have hbU : c.biUnion (closureCandidates gr) \ r ⊆ U := by
        intro y hy
        rw [Finset.mem_sdiff, Finset.mem_biUnion] at hy
        obtain ⟨⟨z, hz, hyz⟩, -⟩ := hy
        exact hU z (hrU (hcr hz)) hyz
      have hbsub : c.biUnion (closureCandidates gr) ⊆
          r ∪ (c.biUnion (closureCandidates gr) \ r) := by
        intro y hy
        by_cases hyr : y ∈ r
        · exact Finset.mem_union_left _ hyr
        · exact Finset.mem_union_right _ (Finset.mem_sdiff.2 ⟨hy, hyr⟩)
      by_cases hn : c.biUnion (closureCandidates gr) \ r = ∅
      · have hbr : c.biUnion (closureCandidates gr) ⊆ r := by
          intro y hy
          rcases Finset.mem_union.1 (hbsub hy) with h' | h'
          · exact h'
          · rw [hn] at h'; exact absurd h' (Finset.not_mem_empty _)
        have heq : ∀ g, closureAux gr (g + 1) r c = r := by
          intro g
          simp only [closureAux, hc, if_false, hn, Finset.union_empty, closureAux_nil]
        constructor
        · rw [heq fuel]
          intro x hx
          by_cases hxc : x ∈ c
          · exact fun y hy => hbr (Finset.mem_biUnion.2 ⟨x, hxc, hy⟩)
          · exact hproc x hx hxc
        · intro extra
          have : fuel + 1 + extra = (fuel + extra) + 1 := by omega
          rw [this, heq (fuel + extra), heq fuel]
      · have hstep_eq : ∀ g, closureAux gr (g + 1) r c =
            closureAux gr g (r ∪ (c.biUnion (closureCandidates gr) \ r))
              (c.biUnion (closureCandidates gr) \ r) := by
          intro g
          simp only [closureAux, hc, if_false]
        have hssub : U \ (r ∪ (c.biUnion (closureCandidates gr) \ r)) ⊂ U \ r := by
          constructor
          · exact Finset.sdiff_subset_sdiff (Finset.Subset.refl U) Finset.subset_union_left
          · intro hcon
            obtain ⟨a, ha⟩ := Finset.nonempty_iff_ne_empty.2 hn
            have haU : a ∈ U := hbU ha
            have har : a ∉ r := (Finset.mem_sdiff.1 ha).2
            have h1 : a ∈ U \ r := Finset.mem_sdiff.2 ⟨haU, har⟩
            have h2 := hcon h1
            rw [Finset.mem_sdiff] at h2
            exact h2.2 (Finset.mem_union_right _ ha)
        have hcard' : (U \ (r ∪ (c.biUnion (closureCandidates gr) \ r))).card < fuel := by
          have h1 := Finset.card_lt_card hssub
          omega
        have hrec := ih (r ∪ (c.biUnion (closureCandidates gr) \ r))
          (c.biUnion (closureCandidates gr) \ r)
          (Finset.union_subset hrU hbU) Finset.subset_union_right
          (by
            intro x hx hxn
            rcases Finset.mem_union.1 hx with h' | h'
            · by_cases hxc : x ∈ c
              · exact Finset.Subset.trans
                  (fun y hy => hbsub (Finset.mem_biUnion.2 ⟨x, hxc, hy⟩))
                  (Finset.Subset.refl _)
              · exact Finset.Subset.trans (hproc x h' hxc) Finset.subset_union_left
            · exact absurd h' hxn)
          hcard'
        constructor
        · rw [hstep_eq fuel]; exact hrec.1
        · intro extra
          have : fuel + 1 + extra = (fuel + extra) + 1 := by omega
          rw [this, hstep_eq (fuel + extra), hstep_eq fuel]
          exact hrec.2 extra

theorem closure_extensive (gr : Grammar) (I : Finset LItem) : I ⊆ closure gr I :=
  subset_closureAux gr _ I I

theorem closure_minimal (gr : Grammar) {I T : Finset LItem}
    (hIT : I ⊆ T) (hT : IsClosed gr T) : closure gr I ⊆ T :=
  closureAux_subset gr hT _ I I hIT hIT

theorem closure_empty (gr : Grammar) : closure gr ∅ = ∅ := by
  unfold closure
  rw [closureAux_nil]

/-- Generic invariant principle for `closure`. -/
theorem closure_induct (gr : Grammar) (P : LItem → Prop)
    (hstep : ∀ x, P x → ∀ y ∈ closureCandidates gr x, P y)
    {I : Finset LItem} (hI : ∀ x ∈ I, P x) :
    ∀ x ∈ closure gr I, P x :=
  closureAux_induct gr P hstep _ I I hI hI

/-! ### The grammar collaborator contract -/

/-- The documented well-formedness contract of the external `Grammar`
collaborator (spec §3 and §6): `first_set` returns terminals of the
grammar or terminal symbols occurring in its argument sequence; a
sequence ending in a terminal symbol has a nonempty FIRST set; terminals
occurring in production bodies belong to the terminal alphabet; the
end-of-input and free markers are fresh and distinct; the augmented
start symbol `nonterms[0]` (whose production block starts at offset 0)
occurs in no production body, and every other nonterminal's production
block starts at a positive offset. -/
structure GrammarWF (gr : Grammar) : Prop where
  first_bound : ∀ seq t, some t ∈ gr.firstSet seq → t ∈ gr.terminals ∨ Sym.t t ∈ seq
  first_nonempty : ∀ p d la, ∃ t, some t ∈ gr.firstSet ((gr.prodBody p).drop d ++ [Sym.t la])
  body_terminals : ∀ pr ∈ gr.productions, ∀ a, Sym.t a ∈ pr.2 → a ∈ gr.terminals
  eoi_fresh : gr.eoi ∉ gr.terminals
  free_fresh : gr.free ∉ gr.terminals
  free_ne_eoi : gr.free ≠ gr.eoi
  start_not_in_bodies : ∀ pr ∈ gr.productions, Sym.n (gr.nonterms.headD 0) ∉ pr.2
  offset_pos : ∀ nt ∈ gr.nonterms, nt ≠ gr.nonterms.headD 0 → 1 ≤ gr.nonterm_offset nt

theorem prodBody_cases (gr : Grammar) (p : Nat) :
    gr.prodBody p = [] ∨ ∃ pr ∈ gr.productions, gr.prodBody p = pr.2 := by
  unfold Grammar.prodBody
  rcases h : gr.productions[p]? with _ | pr
  · left; simp [List.getD, h]
  · right
    refine ⟨pr, ?_, by simp [List.getD, h]⟩
    exact List.get?_mem (by rw [List.get?_eq_getElem?]; exact h)

theorem mem_prodBody_terminal {gr : Grammar} (hwf : GrammarWF gr) {p : Nat} {a : String}
    (h : Sym.t a ∈ gr.prodBody p) : a ∈ gr.terminals := by
  rcases prodBody_cases gr p with h0 | ⟨pr, hpr, h0⟩
  · rw [h0] at h; exact absurd h (List.not_mem_nil _)
  · rw [h0] at h; exact hwf.body_terminals pr hpr a h

theorem start_not_in_prodBody {gr : Grammar} (hwf : GrammarWF gr) {p : Nat}
    (h : Sym.n (gr.nonterms.headD 0) ∈ gr.prodBody p) : False := by
  rcases prodBody_cases gr p with h0 | ⟨pr, hpr, h0⟩
  · rw [h0] at h; exact List.not_mem_nil _ h
  · rw [h0] at h; exact hwf.start_not_in_bodies pr hpr h

/-- A nonterminal standing right of the dot really occurs in the
production body (and the dot is inside the body). -/
theorem dot_nonterm_mem {gr : Grammar} {p d nt : Nat}
    (h1 : d ≠ (gr.prodBody p).length)
    (h2 : (gr.prodBody p).getD d (Sym.t "") = Sym.n nt) :
    d < (gr.prodBody p).length ∧ Sym.n nt ∈ gr.prodBody p := by
  by_cases hlt : d < (gr.prodBody p).length
  · refine ⟨hlt, ?_⟩
    rw [List.getD_eq_getElem _ _ hlt] at h2
    rw [← h2]
    exact List.getElem_mem hlt
  · have hge : (gr.prodBody p).length ≤ d := le_of_not_lt hlt
    rw [List.getD_eq_default _ _ hge] at h2
    exact absurd h2 (by simp)

/-- Everything `closure` generates lies on a production of a nonterminal
of the grammar, hence (well-formedness) never on production 0. -/
theorem candidates_prod_pos {gr : Grammar} (hwf : GrammarWF gr) {x y : LItem}
    (hy : y ∈ closureCandidates gr x) : 1 ≤ y.1.1 := by
  rw [mem_closureCandidates] at hy
  obtain ⟨nt, h1, h2, h3, idx, hidx, a, ha, rfl⟩ := hy
  obtain ⟨-, hmem⟩ := dot_nonterm_mem h1 h2
  have hne : nt ≠ gr.nonterms.headD 0 := by
    intro h
    exact start_not_in_prodBody hwf (h ▸ hmem)
  have := hwf.offset_pos nt h3 hne
  simp only []
  omega

theorem la_mem_of_mem_universe {gr : Grammar} {I : Finset LItem} {x : LItem}
    (hx : x ∈ closureUniverse gr I) : x.2 ∈ laUniverse gr I := by
  rcases Finset.mem_union.1 hx with h | h
  · exact Finset.mem_union_left _ (Finset.mem_image.2 ⟨x, h, rfl⟩)
  · exact (Finset.mem_product.1 h).2

theorem closureUniverse_closed {gr : Grammar} (hwf : GrammarWF gr) (I : Finset LItem) :
    ∀ x ∈ closureUniverse gr I, closureCandidates gr x ⊆ closureUniverse gr I := by
  intro x hx y hy
  rw [mem_closureCandidates] at hy
  obtain ⟨nt, h1, h2, h3, idx, hidx, a, ha, rfl⟩ := hy
  have hprod : gr.nonterm_offset nt + idx ∈ prodUniverse gr := by
    rw [prodUniverse, Finset.mem_biUnion]
    exact ⟨nt, List.mem_toFinset.2 h3,
      Finset.mem_image.2 ⟨idx, Finset.mem_range.2 hidx, rfl⟩⟩
  have hla : a ∈ laUniverse gr I := by
    rcases hwf.first_bound _ a ha with ht | hseq
    · exact Finset.mem_union_right _ (List.mem_toFinset.2 ht)
    · rcases List.mem_append.1 hseq with hd | hl
      · have hb : Sym.t a ∈ gr.prodBody x.1.1 := List.drop_subset _ _ hd
        exact Finset.mem_union_right _
          (List.mem_toFinset.2 (mem_prodBody_terminal hwf hb))
      · have hax : a = x.2 := by simpa using hl
        rw [hax]
        exact la_mem_of_mem_universe hx
  refine Finset.mem_union_right _ (Finset.mem_product.2 ⟨Finset.mem_product.2 ⟨hprod, ?_⟩, hla⟩)
  simp

/-- With the canonical fuel the worklist loop reaches a closed result and
additional fuel does not change it. -/
theorem closure_fix {gr : Grammar} (hwf : GrammarWF gr) (I : Finset LItem) :
    IsClosed gr (closure gr I) ∧
      ∀ extra, closureAux gr (closureFuel gr I + extra) I I = closure gr I := by
  have hcard : (closureUniverse gr I \ I).card < closureFuel gr I := by
    have h1 : (closureUniverse gr I \ I).card ≤ (closureUniverse gr I).card :=
      Finset.card_le_card (Finset.sdiff_subset)
    unfold closureFuel
    omega
  have h := closureAux_closed gr (closureUniverse_closed hwf I) (closureFuel gr I) I I
    Finset.subset_union_left (Finset.Subset.refl I)
    (fun x hx hxc => absurd hx hxc) hcard
  exact ⟨h.1, h.2⟩

theorem closure_isClosed {gr : Grammar} (hwf : GrammarWF gr) (I : Finset LItem) :
    IsClosed gr (closure gr I) :=
  (closure_fix hwf I).1

theorem closure_idem {gr : Grammar} (hwf : GrammarWF gr) (I : Finset LItem) :
    closure gr (closure gr I) = closure gr I :=
  Finset.Subset.antisymm
    (closure_minimal gr (Finset.Subset.refl _) (closure_isClosed hwf I))
    (closure_extensive gr _)

/-- Lookaheads produced by `closure` are lookaheads of the input set or
grammar terminals. -/
theorem closure_la_bound {gr : Grammar} (hwf : GrammarWF gr) {I : Finset LItem} :
    ∀ x ∈ closure gr I, x.2 ∈ laUniverse gr I := by
  refine closure_induct gr (fun z => z.2 ∈ laUniverse gr I) ?_ ?_
  · intro z hz y hy
    rw [mem_closureCandidates] at hy
    obtain ⟨nt, h1, h2, h3, idx, hidx, a, ha, rfl⟩ := hy
    rcases hwf.first_bound _ a ha with ht | hseq
    · exact Finset.mem_union_right _ (List.mem_toFinset.2 ht)
    · rcases List.mem_append.1 hseq with hd | hl
      · have hb : Sym.t a ∈ gr.prodBody z.1.1 := List.drop_subset _ _ hd
        exact Finset.mem_union_right _
          (List.mem_toFinset.2 (mem_prodBody_terminal hwf hb))
      · have hax : a = z.2 := by simpa using hl
        rw [hax]; exact hz
  · intro z hz
    exact Finset.mem_union_left _ (Finset.mem_image.2 ⟨z, hz, rfl⟩)

/-- The only production-0 item of `closure(gr, [(i_item, free)])` is the
seed itself. -/
theorem closureSeed_prod0 {gr : Grammar} (hwf : GrammarWF gr) {it : Item} {x : LItem}
    (hx : x ∈ closureSeed gr it) (h0 : x.1.1 = 0) : x = (it, gr.free) := by
  refine closure_induct gr (fun z => z.1.1 = 0 → z = (it, gr.free)) ?_ ?_ x hx h0
  · intro z _ y hy hy0
    have := candidates_prod_pos hwf hy
    omega
  · intro z hz
    intro _
    simpa using hz

/-- Lookaheads in `closure(gr, [(i_item, free)])` are the free marker or a
grammar terminal. -/
theorem closureSeed_la {gr : Grammar} (hwf : GrammarWF gr) {it : Item} {x : LItem}
    (hx : x ∈ closureSeed gr it) : x.2 = gr.free ∨ x.2 ∈ gr.terminals := by
  have h := closure_la_bound hwf x hx
  simp only [laUniverse, Finset.mem_union, Finset.mem_image, List.mem_toFinset] at h
  rcases h with ⟨z, hz, hzx⟩ | ht
  · left
    simp only [Finset.mem_singleton] at hz
    rw [hz] at hzx
    exact hzx.symm
  · right; exact ht

/-! ### Cores: closure and goto commute with dropping lookaheads -/

/-- The lookahead-independent part of the expansion rule: the cores of
the items one item can contribute in `closure`'s loop body. -/
def coreCandidates (gr : Grammar) (it : Item) : Finset Item :=
  if it.2 = (gr.prodBody it.1).length then ∅
  else
    match (gr.prodBody it.1).getD it.2 (Sym.t "") with
    | Sym.t _ => ∅
    | Sym.n nt =>
      if nt ∈ gr.nonterms then
        (Finset.range (gr.numProds nt)).image fun idx => (gr.nonterm_offset nt + idx, 0)
      else ∅

theorem mem_coreCandidates {gr : Grammar} {it q : Item} :
    q ∈ coreCandidates gr it ↔
      ∃ nt, it.2 ≠ (gr.prodBody it.1).length ∧
        (gr.prodBody it.1).getD it.2 (Sym.t "") = Sym.n nt ∧ nt ∈ gr.nonterms ∧
        ∃ idx < gr.numProds nt, q = (gr.nonterm_offset nt + idx, 0) := by
  constructor
  · intro hq
    simp only [coreCandidates] at hq
    split at hq
    · exact absurd hq (Finset.not_mem_empty _)
    · rename_i h1
      split at hq
      · exact absurd hq (Finset.not_mem_empty _)
      · rename_i nt h2
        split at hq
        · rename_i h3
          rw [Finset.mem_image] at hq
          obtain ⟨idx, hidx, hq⟩ := hq
          exact ⟨nt, h1, h2, h3, idx, Finset.mem_range.1 hidx, hq.symm⟩
        · exact absurd hq (Finset.not_mem_empty _)
  · rintro ⟨nt, h1, h2, h3, idx, hidx, rfl⟩
    simp only [coreCandidates, h2, if_neg h1, if_pos h3, Finset.mem_image]
    exact ⟨idx, Finset.mem_range.2 hidx, rfl⟩

theorem closureCandidates_core {gr : Grammar} {x y : LItem}
    (hy : y ∈ closureCandidates gr x) : y.1 ∈ coreCandidates gr x.1 := by
  rw [mem_closureCandidates] at hy
  obtain ⟨nt, h1, h2, h3, idx, hidx, a, _, rfl⟩ := hy
  exact mem_coreCandidates.2 ⟨nt, h1, h2, h3, idx, hidx, rfl⟩

theorem coreCandidates_lift {gr : Grammar} (hwf : GrammarWF gr) {x : LItem} {q : Item}
    (hq : q ∈ coreCandidates gr x.1) : ∃ a, (q, a) ∈ closureCandidates gr x := by
  rw [mem_coreCandidates] at hq
  obtain ⟨nt, h1, h2, h3, idx, hidx, rfl⟩ := hq
  obtain ⟨a, ha⟩ := hwf.first_nonempty x.1.1 (x.1.2 + 1) x.2
  exact ⟨a, mem_closureCandidates.2 ⟨nt, h1, h2, h3, idx, hidx, a, ha, rfl⟩⟩

/-- Items reachable from a set of cores by the core-level expansion rule:
exactly the cores of the corresponding `closure`. -/
inductive CoreReach (gr : Grammar) (C : Finset Item) : Item → Prop where
  | base (it : Item) (h : it ∈ C) : CoreReach gr C it
  | step (it q : Item) (h : CoreReach gr C it) (hq : q ∈ coreCandidates gr it) :
      CoreReach gr C q

theorem core_closure_iff {gr : Grammar} (hwf : GrammarWF gr) (A : Finset LItem) (it : Item) :
    it ∈ dropLookaheads (closure gr A) ↔ CoreReach gr (dropLookaheads A) it := by
  constructor
  · intro h
    rw [dropLookaheads, Finset.mem_image] at h
    obtain ⟨x, hx, rfl⟩ := h
    refine closure_induct gr (fun z => CoreReach gr (dropLookaheads A) z.1) ?_ ?_ x hx
    · intro z hz y hy
      exact CoreReach.step z.1 y.1 hz (closureCandidates_core hy)
    · intro z hz
      exact CoreReach.base z.1 (Finset.mem_image.2 ⟨z, hz, rfl⟩)
  · intro h
    induction h with
    | base it' h' =>
      rw [dropLookaheads, Finset.mem_image] at h' ⊢
      obtain ⟨x, hx, rfl⟩ := h'
      exact ⟨x, closure_extensive gr A hx, rfl⟩
    | step it' q _ hq ih =>
      rw [dropLookaheads, Finset.mem_image] at ih
      obtain ⟨x, hx, hx1⟩ := ih
      obtain ⟨a, ha⟩ := coreCandidates_lift hwf (x := x) (q := q) (hx1 ▸ hq)
      have hmem := closure_isClosed hwf A x hx ha
      exact Finset.mem_image.2 ⟨(q, a), hmem, rfl⟩

/-- The core of a closure depends only on the core of the input. -/
theorem core_closure_congr {gr : Grammar} (hwf : GrammarWF gr) {A B : Finset LItem}
    (h : dropLookaheads A = dropLookaheads B) :
    dropLookaheads (closure gr A) = dropLookaheads (closure gr B) := by
  ext it
  rw [core_closure_iff hwf, core_closure_iff hwf, h]

/-- Core-level `goto` kernel: matching items of a core, advanced one
position. -/
def advCore (gr : Grammar) (C : Finset Item) (X : Sym) : Finset Item :=
  (C.filter fun it =>
      it.2 ≠ (gr.prodBody it.1).length ∧
      (gr.prodBody it.1).getD it.2 (Sym.t "") = X).image
    fun it => (it.1, it.2 + 1)

theorem dropLookaheads_advSet (gr : Grammar) (I : Finset LItem) (X : Sym) :
    dropLookaheads (advSet gr I X) = advCore gr (dropLookaheads I) X := by
  ext q
  simp only [dropLookaheads, advSet, transItems, advCore, Finset.mem_image,
    Finset.mem_filter]
  constructor
  · rintro ⟨y, ⟨x, ⟨hx, hc1, hc2⟩, rfl⟩, rfl⟩
    exact ⟨x.1, ⟨⟨x, hx, rfl⟩, hc1, hc2⟩, rfl⟩
  · rintro ⟨it, ⟨⟨x, hx, rfl⟩, hc1, hc2⟩, rfl⟩
    exact ⟨((x.1.1, x.1.2 + 1), x.2), ⟨x, ⟨hx, hc1, hc2⟩, rfl⟩, rfl⟩

theorem dropLookaheads_eq_empty {I : Finset LItem} :
    dropLookaheads I = ∅ ↔ I = ∅ := by
  simp [dropLookaheads]

theorem goto_eq_empty_iff {gr : Grammar} {I : Finset LItem} {X : Sym} :
    goto gr I X = ∅ ↔ advSet gr I X = ∅ := by
  constructor
  · intro h
    have h1 := closure_extensive gr (advSet gr I X)
    rw [goto] at h
    rw [h] at h1
    exact Finset.subset_empty.1 h1
  · intro h
    rw [goto, h, closure_empty]

/-! ### The propagation fixed point -/

def cellFinset (dfa : Dfa) : Finset Cell := (cellList dfa).toFinset

theorem le_processCell (E : Finset (Cell × Cell)) (L : Cell → Finset String)
    (c d : Cell) : L d ⊆ processCell E L c d := by
  unfold processCell
  split
  · exact Finset.subset_union_left
  · exact Finset.Subset.refl _

theorem le_foldl_processCell (E : Finset (Cell × Cell)) :
    ∀ (l : List Cell) (L : Cell → Finset String) (d : Cell),
      L d ⊆ (l.foldl (processCell E) L) d
  | [], _, _ => Finset.Subset.refl _
  | c :: l, L, d =>
    Finset.Subset.trans (le_processCell E L c d) (le_foldl_processCell E l _ d)

/-- Lookahead sets only grow during a propagation pass. -/
theorem le_pass (gr : Grammar) (dfa : Dfa) (L : Cell → Finset String) (c : Cell) :
    L c ⊆ pass gr dfa L c :=
  le_foldl_processCell _ _ _ _

theorem processCell_nontarget {E : Finset (Cell × Cell)} {L : Cell → Finset String}
    {c d : Cell} (hd : (c, d) ∉ E) : processCell E L c d = L d := by
  unfold processCell
  rw [if_neg hd]

theorem foldl_processCell_nontarget (E : Finset (Cell × Cell)) {d : Cell}
    (hd : ∀ c, (c, d) ∉ E) :
    ∀ (l : List Cell) (L : Cell → Finset String), (l.foldl (processCell E) L) d = L d
  | [], _ => rfl
  | c :: l, L => by
    rw [List.foldl_cons, foldl_processCell_nontarget E hd l _, processCell_nontarget (hd c)]

theorem propagateAux_nontarget (gr : Grammar) (dfa : Dfa) {d : Cell}
    (hd : ∀ c, (c, d) ∉ propEdges gr dfa) :
    ∀ (f : Nat) (L : Cell → Finset String), propagateAux gr dfa f L d = L d
  | 0, _ => rfl
  | f + 1, L => by
    simp only [propagateAux]
    split
    · rfl
    · rw [propagateAux_nontarget gr dfa hd f _]
      unfold pass
      exact foldl_processCell_nontarget _ hd _ _

/-- Generic invariant preservation through the propagation loop. -/
theorem propagateAux_invariant (gr : Grammar) (dfa : Dfa)
    (Inv : (Cell → Finset String) → Prop)
    (hpass : ∀ L, Inv L → Inv (pass gr dfa L)) :
    ∀ (f : Nat) (L : Cell → Finset String), Inv L → Inv (propagateAux gr dfa f L)
  | 0, _, h => h
  | f + 1, L, h => by
    simp only [propagateAux]
    split
    · exact h
    · exact propagateAux_invariant gr dfa Inv hpass f _ (hpass L h)

/-- Bound preservation: a pass only unions values of listed cells into
other cells. -/
theorem foldl_processCell_bound (E : Finset (Cell × Cell)) (B : Finset String)
    (dom : Finset Cell) :
    ∀ (l : List Cell) (L : Cell → Finset String),
      (∀ c ∈ l, c ∈ dom) → (∀ c ∈ dom, L c ⊆ B) →
      ∀ c ∈ dom, (l.foldl (processCell E) L) c ⊆ B
  | [], _, _, hL, c, hc => hL c hc
  | c0 :: l, L, hl, hL, c, hc => by
    refine foldl_processCell_bound E B dom l _
      (fun c h => hl c (List.mem_cons_of_mem _ h)) ?_ c hc
    intro d hd
    unfold processCell
    split
    · exact Finset.union_subset (hL d hd) (hL c0 (hl c0 (List.mem_cons_self _ _)))
    · exact hL d hd

theorem pass_bound (gr : Grammar) (dfa : Dfa) (B : Finset String)
    {L : Cell → Finset String} (hL : ∀ c ∈ cellFinset dfa, L c ⊆ B) :
    ∀ c ∈ cellFinset dfa, pass gr dfa L c ⊆ B :=
  foldl_processCell_bound _ B (cellFinset dfa) (cellList dfa) L
    (fun c hc => List.mem_toFinset.2 hc) hL

/-- Class preservation: if edges into a class `S` of cells only come from
`S`, a pass keeps every `S`-cell's lookaheads inside `B`. -/
theorem foldl_processCell_class (E : Finset (Cell × Cell)) (S : Cell → Prop)
    (hE : ∀ e ∈ E, S e.2 → S e.1) (B : Finset String) :
    ∀ (l : List Cell) (L : Cell → Finset String),
      (∀ c, S c → L c ⊆ B) → ∀ c, S c → (l.foldl (processCell E) L) c ⊆ B
  | [], _, hL, c, hc => hL c hc
  | c0 :: l, L, hL, c, hc => by
    refine foldl_processCell_class E S hE B l _ ?_ c hc
    intro d hd
    unfold processCell
    split
    · rename_i hmem
      exact Finset.union_subset (hL d hd) (hL c0 (hE _ hmem hd))
    · exact hL d hd

theorem pass_class (gr : Grammar) (dfa : Dfa) (S : Cell → Prop)
    (hE : ∀ e ∈ propEdges gr dfa, S e.2 → S e.1) (B : Finset String)
    {L : Cell → Finset String} (hL : ∀ c, S c → L c ⊆ B) :
    ∀ c, S c → pass gr dfa L c ⊆ B :=
  foldl_processCell_class _ S hE B (cellList dfa) L hL

/-- Total slack of the lookahead table with respect to the alphabet
bound; it strictly decreases on every changing pass. -/
def tableMeasure (gr : Grammar) (dfa : Dfa) (L : Cell → Finset String) : Nat :=
  Finset.sum (cellFinset dfa) fun c => (alphaBound gr).card - (L c).card

theorem tableMeasure_lt (gr : Grammar) (dfa : Dfa) {L : Cell → Finset String}
    (hL : ∀ c ∈ cellFinset dfa, L c ⊆ alphaBound gr)
    {c0 : Cell} (hc0 : c0 ∈ cellFinset dfa) (hne : pass gr dfa L c0 ≠ L c0) :
    tableMeasure gr dfa (pass gr dfa L) < tableMeasure gr dfa L := by
  have hBound := pass_bound gr dfa (alphaBound gr) hL
  refine Finset.sum_lt_sum ?_ ⟨c0, hc0, ?_⟩
  · intro c hc
    have h1 : (L c).card ≤ (pass gr dfa L c).card :=
      Finset.card_le_card (le_pass gr dfa L c)
    omega
  · have hss : L c0 ⊂ pass gr dfa L c0 :=
      Finset.ssubset_iff_subset_ne.2 ⟨le_pass gr dfa L c0, fun h => hne h.symm⟩
    have h1 : (L c0).card < (pass gr dfa L c0).card := Finset.card_lt_card hss
    have h2 : (pass gr dfa L c0).card ≤ (alphaBound gr).card :=
      Finset.card_le_card (hBound c0 hc0)
    omega

/-- Enough fuel makes the propagation loop reach a pass-stable table, and
extra fuel no longer changes the outcome. -/
theorem propagateAux_fix (gr : Grammar) (dfa : Dfa) :
    ∀ (f : Nat) (L : Cell → Finset String),
      (∀ c ∈ cellFinset dfa, L c ⊆ alphaBound gr) →
      tableMeasure gr dfa L < f →
      (∀ c ∈ cellFinset dfa, pass gr dfa (propagateAux gr dfa f L) c =
        propagateAux gr dfa f L c) ∧
      (∀ c ∈ cellFinset dfa, propagateAux gr dfa f L c ⊆ alphaBound gr) ∧
      ∀ extra, propagateAux gr dfa (f + extra) L = propagateAux gr dfa f L := by
  intro f
  induction f with
  | zero => intro L _ hm; exact absurd hm (Nat.not_lt_zero _)
  | succ fuel ih =>
    intro L hB hm
    by_cases hstable : ∀ c ∈ cellList dfa, pass gr dfa L c = L c
    · have hcond : ((cellList dfa).all fun c => decide (pass gr dfa L c = L c)) = true := by
        rw [List.all_eq_true]
        intro c hc
        exact decide_eq_true (hstable c hc)
      have heq : ∀ g, propagateAux gr dfa (g + 1) L = L := by
        intro g
        simp only [propagateAux, hcond, if_pos]
      refine ⟨?_, ?_, ?_⟩
      · rw [heq fuel]
        intro c hc
        exact hstable c (List.mem_toFinset.1 hc)
      · rw [heq fuel]; exact hB
      · intro extra
        have h : fuel + 1 + extra = (fuel + extra) + 1 := by omega
        rw [h, heq (fuel + extra), heq fuel]
    · push_neg at hstable
      obtain ⟨c0, hc0, hne⟩ := hstable
      have hcond : ¬ ((cellList dfa).all fun c => decide (pass gr dfa L c = L c)) = true := by
        rw [List.all_eq_true]
        intro hall
        exact hne (of_decide_eq_true (hall c0 hc0))
      have hstep : ∀ g, propagateAux gr dfa (g + 1) L =
          propagateAux gr dfa g (pass gr dfa L) := by
        intro g
        simp [propagateAux, hcond]
      have hB' := pass_bound gr dfa (alphaBound gr) hB
      have hm' : tableMeasure gr dfa (pass gr dfa L) < fuel := by
        have := tableMeasure_lt gr dfa hB (List.mem_toFinset.2 hc0) hne
        omega
      have hrec := ih (pass gr dfa L) hB' hm'
      refine ⟨?_, ?_, ?_⟩
      · rw [hstep fuel]; exact hrec.1
      · rw [hstep fuel]; exact hrec.2.1
      · intro extra
        have h : fuel + 1 + extra = (fuel + extra) + 1 := by omega
        rw [h, hstep (fuel + extra), hstep fuel]
        exact hrec.2.2 extra

/-! ### Structure of the spontaneous lookaheads and propagation edges -/

theorem mem_spontLA {gr : Grammar} {dfa : Dfa} {pr : Cell × String} :
    pr ∈ spontLA gr dfa ↔
      ∃ i < dfa.n, ∃ iItem ∈ kstatesFn dfa i, ∃ sym ∈ dfa.stateSymbols i,
        ∃ x ∈ transItems gr (closureSeed gr iItem) sym, x.2 ≠ gr.free ∧
          pr = ((dfa.gotoD (i, sym), (x.1.1, x.1.2 + 1)), x.2) := by
  simp only [spontLA, Finset.mem_biUnion, Finset.mem_image, Finset.mem_filter,
    Finset.mem_range, List.mem_toFinset]
  constructor
  · rintro ⟨i, hi, iItem, hkk, sym, hsym, x, ⟨hx, hxf⟩, rfl⟩
    exact ⟨i, hi, iItem, hkk, sym, hsym, x, hx, hxf, rfl⟩
  · rintro ⟨i, hi, iItem, hkk, sym, hsym, x, hx, hxf, rfl⟩
    exact ⟨i, hi, iItem, hkk, sym, hsym, x, ⟨hx, hxf⟩, rfl⟩

theorem mem_propEdges {gr : Grammar} {dfa : Dfa} {e : Cell × Cell} :
    e ∈ propEdges gr dfa ↔
      ∃ i < dfa.n, ∃ iItem ∈ kstatesFn dfa i, ∃ sym ∈ dfa.stateSymbols i,
        ∃ x ∈ transItems gr (closureSeed gr iItem) sym, x.2 = gr.free ∧
          e = ((i, iItem), (dfa.gotoD (i, sym), (x.1.1, x.1.2 + 1))) := by
  simp only [propEdges, Finset.mem_biUnion, Finset.mem_image, Finset.mem_filter,
    Finset.mem_range, List.mem_toFinset]
  constructor
  · rintro ⟨i, hi, iItem, hkk, sym, hsym, x, ⟨hx, hxf⟩, rfl⟩
    exact ⟨i, hi, iItem, hkk, sym, hsym, x, hx, hxf, rfl⟩
  · rintro ⟨i, hi, iItem, hkk, sym, hsym, x, hx, hxf, rfl⟩
    exact ⟨i, hi, iItem, hkk, sym, hsym, x, ⟨hx, hxf⟩, rfl⟩

/-- Spontaneously seeded cells carry an item with the dot past 0. -/
theorem spontLA_dot_pos {gr : Grammar} {dfa : Dfa} {pr : Cell × String}
    (h : pr ∈ spontLA gr dfa) : 1 ≤ pr.1.2.2 := by
  rw [mem_spontLA] at h
  obtain ⟨i, _, iItem, _, sym, _, x, _, _, rfl⟩ := h
  simp

/-- No spontaneous lookahead is ever attached to an item of production 0. -/
theorem spontLA_prod0 {gr : Grammar} {dfa : Dfa} (hwf : GrammarWF gr) {pr : Cell × String}
    (h : pr ∈ spontLA gr dfa) : pr.1.2.1 ≠ 0 := by
  rw [mem_spontLA] at h
  obtain ⟨i, _, iItem, _, sym, _, x, hx, hxf, rfl⟩ := h
  intro h0
  have hxs : x ∈ closureSeed gr iItem := (Finset.mem_filter.1 hx).1
  have hx0 : x.1.1 = 0 := h0
  have := closureSeed_prod0 hwf hxs hx0
  rw [this] at hxf
  exact hxf rfl

/-- Spontaneous lookaheads are grammar terminals. -/
theorem spontLA_la {gr : Grammar} {dfa : Dfa} (hwf : GrammarWF gr) {pr : Cell × String}
    (h : pr ∈ spontLA gr dfa) : pr.2 ∈ gr.terminals := by
  rw [mem_spontLA] at h
  obtain ⟨i, _, iItem, _, sym, _, x, hx, hxf, rfl⟩ := h
  have hxs : x ∈ closureSeed gr iItem := (Finset.mem_filter.1 hx).1
  rcases closureSeed_la hwf hxs with h' | h'
  · exact absurd h' hxf
  · exact h'

/-- Propagation targets carry an item with the dot past 0. -/
theorem propEdges_dot_pos {gr : Grammar} {dfa : Dfa} {e : Cell × Cell}
    (h : e ∈ propEdges gr dfa) : 1 ≤ e.2.2.2 := by
  rw [mem_propEdges] at h
  obtain ⟨i, _, iItem, _, sym, _, x, _, _, rfl⟩ := h
  simp

/-- A propagation edge into a production-0 item comes from a
production-0 item. -/
theorem propEdges_prod0_source {gr : Grammar} {dfa : Dfa} (hwf : GrammarWF gr)
    {e : Cell × Cell} (h : e ∈ propEdges gr dfa) (h0 : e.2.2.1 = 0) : e.1.2.1 = 0 := by
  rw [mem_propEdges] at h
  obtain ⟨i, _, iItem, _, sym, _, x, hx, hxf, rfl⟩ := h
  have hxs : x ∈ closureSeed gr iItem := (Finset.mem_filter.1 hx).1
  have hx0 : x.1.1 = 0 := h0
  have hxeq := closureSeed_prod0 hwf hxs hx0
  have : iItem.1 = 0 := by
    have : x.1 = iItem := congrArg Prod.fst hxeq
    rw [← this]; exact hx0
  exact this

/-! ### The resolved lookahead table -/

theorem initTable_start (gr : Grammar) (dfa : Dfa) :
    initTable gr dfa (0, (0, 0)) = {gr.eoi} := by
  unfold initTable
  rw [if_pos rfl]
  have hfilter : (spontLA gr dfa).filter (fun pr => pr.1 = ((0, (0, 0)) : Cell)) = ∅ := by
    rw [Finset.filter_eq_empty_iff]
    intro pr hpr h
    have hd := spontLA_dot_pos hpr
    rw [h] at hd
    simp at hd
  rw [hfilter]
  simp

theorem initTable_bound {gr : Grammar} {dfa : Dfa} (hwf : GrammarWF gr) (c : Cell) :
    initTable gr dfa c ⊆ alphaBound gr := by
  unfold initTable
  refine Finset.union_subset ?_ ?_
  · split
    · intro a ha
      rw [Finset.mem_singleton] at ha
      rw [ha]
      exact Finset.mem_union_right _ (Finset.mem_singleton_self _)
    · exact Finset.empty_subset _
  · intro a ha
    rw [Finset.mem_image] at ha
    obtain ⟨pr, hpr, rfl⟩ := ha
    have := spontLA_la hwf (Finset.mem_filter.1 hpr).1
    exact Finset.mem_union_left _ (List.mem_toFinset.2 this)

theorem initTable_prod0 {gr : Grammar} {dfa : Dfa} (hwf : GrammarWF gr) (c : Cell)
    (h0 : c.2.1 = 0) : initTable gr dfa c ⊆ {gr.eoi} := by
  unfold initTable
  refine Finset.union_subset ?_ ?_
  · split
    · exact Finset.Subset.refl _
    · exact Finset.empty_subset _
  · intro a ha
    rw [Finset.mem_image] at ha
    obtain ⟨pr, hpr, rfl⟩ := ha
    rw [Finset.mem_filter] at hpr
    have hne := spontLA_prod0 hwf hpr.1
    rw [hpr.2] at hne
    exact absurd h0 hne

theorem tableMeasure_lt_propFuel (gr : Grammar) (dfa : Dfa) (L : Cell → Finset String) :
    tableMeasure gr dfa L < propFuel gr dfa := by
  unfold tableMeasure propFuel
  have h1 : (Finset.sum (cellFinset dfa) fun c => (alphaBound gr).card - (L c).card) ≤
      Finset.sum (cellFinset dfa) fun _ => (alphaBound gr).card :=
    Finset.sum_le_sum fun c _ => Nat.sub_le _ _
  rw [Finset.sum_const, smul_eq_mul] at h1
  have h2 : (cellList dfa).toFinset = cellFinset dfa := rfl
  rw [h2]
  omega

/-- The lookahead table is pass-stable on every kernel-item cell. -/
theorem lookaheadTable_stable {gr : Grammar} {dfa : Dfa} (hwf : GrammarWF gr) :
    ∀ c ∈ cellFinset dfa,
      pass gr dfa (lookaheadTable gr dfa) c = lookaheadTable gr dfa c :=
  (propagateAux_fix gr dfa (propFuel gr dfa) (initTable gr dfa)
    (fun c _ => initTable_bound hwf c) (tableMeasure_lt_propFuel gr dfa _)).1

/-- Resolved lookaheads stay inside the terminal alphabet plus
end-of-input. -/
theorem lookaheadTable_bound {gr : Grammar} {dfa : Dfa} (hwf : GrammarWF gr) :
    ∀ c ∈ cellFinset dfa, lookaheadTable gr dfa c ⊆ alphaBound gr :=
  (propagateAux_fix gr dfa (propFuel gr dfa) (initTable gr dfa)
    (fun c _ => initTable_bound hwf c) (tableMeasure_lt_propFuel gr dfa _)).2.1

/-- Extra fuel does not change the propagation outcome: the loop has
converged within the canonical pass bound. -/
theorem propagateAux_extra {gr : Grammar} {dfa : Dfa} (hwf : GrammarWF gr) (extra : Nat) :
    propagateAux gr dfa (propFuel gr dfa + extra) (initTable gr dfa) =
      lookaheadTable gr dfa :=
  (propagateAux_fix gr dfa (propFuel gr dfa) (initTable gr dfa)
    (fun c _ => initTable_bound hwf c) (tableMeasure_lt_propFuel gr dfa _)).2.2 extra

/-- The cell of the start kernel item is never a propagation target, so
its lookahead set stays the seeded singleton. -/
theorem lookaheadTable_start {gr : Grammar} (dfa : Dfa) :
    lookaheadTable gr dfa (0, (0, 0)) = {gr.eoi} := by
  unfold lookaheadTable
  rw [propagateAux_nontarget gr dfa ?_ _ _]
  · exact initTable_start gr dfa
  · intro c hc
    have hd := propEdges_dot_pos hc
    simp at hd

/-- Production-0 cells only ever hold the end-of-input lookahead. -/
theorem lookaheadTable_prod0 {gr : Grammar} {dfa : Dfa} (hwf : GrammarWF gr) (c : Cell)
    (h0 : c.2.1 = 0) : lookaheadTable gr dfa c ⊆ {gr.eoi} := by
  unfold lookaheadTable
  refine propagateAux_invariant gr dfa
    (fun L => ∀ c, c.2.1 = 0 → L c ⊆ {gr.eoi}) ?_ _ _ ?_ c h0
  · intro L hL
    exact pass_class gr dfa (fun c => c.2.1 = 0)
      (fun e he h2 => propEdges_prod0_source hwf he h2) {gr.eoi} hL
  · exact fun c h => initTable_prod0 hwf c h

/-! ### The canonical collection -/

theorem ccolGet_eq {gr : Grammar} {dfa : Dfa} {s : Nat} (hs : s < dfa.n) :
    ccolGet gr dfa s = closure gr
      ((kstatesFn dfa s).toFinset.biUnion fun k =>
        (lookaheadTable gr dfa (s, k)).image fun sym => (k, sym)) := by
  unfold ccolGet get_canonical_collection
  rw [List.getD_eq_getElem _ _ (by simpa using hs)]
  simp

theorem ccolGet_off {gr : Grammar} {dfa : Dfa} {s : Nat} (hs : ¬ s < dfa.n) :
    ccolGet gr dfa s = ∅ := by
  unfold ccolGet get_canonical_collection
  rw [List.getD_eq_default]
  simpa using le_of_not_lt hs

/-- Every production-0 item of the canonical collection carries the
end-of-input lookahead. -/
theorem ccol_prod0_eoi {gr : Grammar} {dfa : Dfa} (hwf : GrammarWF gr) {s : Nat}
    {x : LItem} (hx : x ∈ ccolGet gr dfa s) (h0 : x.1.1 = 0) : x.2 = gr.eoi := by
  by_cases hs : s < dfa.n
  · rw [ccolGet_eq hs] at hx
    refine closure_induct gr (fun z => z.1.1 = 0 → z.2 = gr.eoi) ?_ ?_ x hx h0
    · intro z _ y hy h0'
      have := candidates_prod_pos hwf hy
      omega
    · intro z hz h0'
      rw [Finset.mem_biUnion] at hz
      obtain ⟨k, hk, hz⟩ := hz
      rw [Finset.mem_image] at hz
      obtain ⟨a, ha, rfl⟩ := hz
      have hsub := @lookaheadTable_prod0 gr dfa hwf (s, k) h0'
      simpa using hsub ha
  · rw [ccolGet_off hs] at hx
    exact absurd hx (Finset.not_mem_empty _)

/-- Lookaheads of the canonical collection lie in the terminal alphabet
plus end-of-input. -/
theorem ccol_la_bound {gr : Grammar} {dfa : Dfa} (hwf : GrammarWF gr) {s : Nat}
    {x : LItem} (hx : x ∈ ccolGet gr dfa s) : x.2 ∈ alphaBound gr := by
  by_cases hs : s < dfa.n
  · rw [ccolGet_eq hs] at hx
    have h := closure_la_bound hwf x hx
    rcases Finset.mem_union.1 h with h' | h'
    · rw [Finset.mem_image] at h'
      obtain ⟨z, hz, hz2⟩ := h'
      rw [Finset.mem_biUnion] at hz
      obtain ⟨k, hk, hz⟩ := hz
      rw [Finset.mem_image] at hz
      obtain ⟨a, ha, rfl⟩ := hz
      have hcell : ((s, k) : Cell) ∈ cellFinset dfa := by
        unfold cellFinset cellList
        rw [List.mem_toFinset, List.mem_flatMap]
        exact ⟨s, List.mem_range.2 hs, List.mem_map.2 ⟨k, List.mem_toFinset.1 hk, rfl⟩⟩
      have := lookaheadTable_bound hwf _ hcell ha
      rw [← hz2]
      exact this
    · exact Finset.mem_union_left _ h'
  · rw [ccolGet_off hs] at hx
    exact absurd hx (Finset.not_mem_empty _)

/-- The free marker never survives into the canonical collection. -/
theorem ccol_no_free {gr : Grammar} {dfa : Dfa} (hwf : GrammarWF gr) {s : Nat}
    {x : LItem} (hx : x ∈ ccolGet gr dfa s) : x.2 ≠ gr.free := by
  intro h
  have hb := ccol_la_bound hwf hx
  rw [h] at hb
  rcases Finset.mem_union.1 hb with h' | h'
  · exact hwf.free_fresh (List.mem_toFinset.1 h')
  · rw [Finset.mem_singleton] at h'
    exact hwf.free_ne_eoi h'

/-! ### The ACTION/GOTO tables -/

/-- Complete inversion of the ACTION-table construction: every entry of
`action[s][t]` arises from an item of the state, through exactly one of
the three recording branches (shift on a terminal after the dot, accept
for the completed augmented production, reduce for other completed
productions).  In particular nothing is recorded for an item whose dot
precedes a nonterminal. -/
theorem mem_actionTable {gr : Grammar} {dfa : Dfa} {s : Nat} {t : String} {e : Entry} :
    e ∈ actionTable gr dfa s t ↔
      ∃ x ∈ ccolGet gr dfa s,
        (∃ T, x.1.2 < (gr.prodBody x.1.1).length ∧
            (gr.prodBody x.1.1).getD x.1.2 (Sym.t "") = Sym.t T ∧
            goto gr (ccolGet gr dfa s) (Sym.t T) ≠ ∅ ∧ T = t ∧
            e = Entry.shift
              (id_from_lr_one_state gr dfa (goto gr (ccolGet gr dfa s) (Sym.t T)))) ∨
        (¬ x.1.2 < (gr.prodBody x.1.1).length ∧ x.1.1 = 0 ∧ t = gr.eoi ∧
          e = Entry.accept) ∨
        (¬ x.1.2 < (gr.prodBody x.1.1).length ∧ x.1.1 ≠ 0 ∧ x.2 = t ∧
          e = Entry.reduce x.1.1) := by
  unfold actionTable
  rw [Finset.mem_biUnion]
  constructor
  · rintro ⟨x, hx, hmem⟩
    refine ⟨x, hx, ?_⟩
    simp only [] at hmem
    split at hmem
    · rename_i hlt
      split at hmem
      · exact absurd hmem (Finset.not_mem_empty _)
      · rename_i T hT
        split at hmem
        · exact absurd hmem (Finset.not_mem_empty _)
        · rename_i hne
          split at hmem
          · rename_i hTt
            rw [Finset.mem_singleton] at hmem
            exact Or.inl ⟨T, hlt, hT, hne, hTt, hmem⟩
          · exact absurd hmem (Finset.not_mem_empty _)
    · rename_i hlt
      split at hmem
      · rename_i h0
        split at hmem
        · rename_i hte
          rw [Finset.mem_singleton] at hmem
          exact Or.inr (Or.inl ⟨hlt, h0, hte, hmem⟩)
        · exact absurd hmem (Finset.not_mem_empty _)
      · rename_i h0
        split at hmem
        · rename_i hxt
          rw [Finset.mem_singleton] at hmem
          exact Or.inr (Or.inr ⟨hlt, h0, hxt, hmem⟩)
        · exact absurd hmem (Finset.not_mem_empty _)
  · rintro ⟨x, hx, hcase⟩
    refine ⟨x, hx, ?_⟩
    rcases hcase with ⟨T, hlt, hT, hne, hTt, he⟩ | ⟨hlt, h0, hte, he⟩ | ⟨hlt, h0, hxt, he⟩
    · simp only [if_pos hlt, hT, if_neg hne, if_pos hTt, he, Finset.mem_singleton]
    · simp only [if_neg hlt, if_pos h0, if_pos hte, he, Finset.mem_singleton]
    · simp only [if_neg hlt, if_neg h0, if_pos hxt, he, Finset.mem_singleton]

theorem advSet_mem {gr : Grammar} {I : Finset LItem} {x : LItem} {X : Sym}
    (hx : x ∈ I) (h1 : x.1.2 ≠ (gr.prodBody x.1.1).length)
    (h2 : (gr.prodBody x.1.1).getD x.1.2 (Sym.t "") = X) :
    ((x.1.1, x.1.2 + 1), x.2) ∈ advSet gr I X := by
  rw [advSet, Finset.mem_image]
  exact ⟨x, Finset.mem_filter.2 ⟨hx, h1, h2⟩, rfl⟩

/-- If some item of the set has `X` at the dot, `goto` on `X` is
nonempty. -/
theorem goto_ne_empty_of_dot {gr : Grammar} {I : Finset LItem} {x : LItem} {X : Sym}
    (hx : x ∈ I) (h1 : x.1.2 < (gr.prodBody x.1.1).length)
    (h2 : (gr.prodBody x.1.1).getD x.1.2 (Sym.t "") = X) :
    goto gr I X ≠ ∅ := by
  intro h
  rw [goto_eq_empty_iff] at h
  have hmem := advSet_mem hx (Nat.ne_of_lt h1) h2
  rw [h] at hmem
  exact Finset.not_mem_empty _ hmem

theorem range_filter_decide_eq {t : Nat} :
    ∀ {n : Nat}, t < n → ((List.range n).filter fun i => decide (i = t)) = [t] := by
  intro n
  induction n with
  | zero => intro h; omega
  | succ m ih =>
    intro h
    rw [List.range_succ, List.filter_append]
    by_cases htm : t < m
    · rw [ih htm]
      have hm : (List.filter (fun i => decide (i = t)) [m]) = [] := by
        simp only [List.filter, decide_eq_true_eq]
        have : ¬ m = t := by omega
        simp [this]
      rw [hm, List.append_nil]
    · have htm' : t = m := by omega
      subst htm'
      have h1 : (List.range t).filter (fun i => decide (i = t)) = [] := by
        rw [List.filter_eq_nil_iff]
        intro a ha
        have := List.mem_range.1 ha
        simp
        omega
      rw [h1]
      simp

/-- When the collection's cores are pairwise distinct, resolving a set by
core match yields the index of the state it matches. -/
theorem id_from_eq {gr : Grammar} {dfa : Dfa} {J : Finset LItem} {t : Nat}
    (ht : t < dfa.n)
    (hcores : ∀ i j, i < dfa.n → j < dfa.n →
      dropLookaheads (ccolGet gr dfa i) = dropLookaheads (ccolGet gr dfa j) → i = j)
    (hJ : dropLookaheads (ccolGet gr dfa t) = dropLookaheads J) :
    id_from_lr_one_state gr dfa J = t := by
  unfold id_from_lr_one_state
  have hcongr : ((List.range dfa.n).filter fun i =>
      decide (dropLookaheads (ccolGet gr dfa i) = dropLookaheads J)) =
      ((List.range dfa.n).filter fun i => decide (i = t)) := by
    refine List.filter_congr ?_
    intro i hi
    have hin : i < dfa.n := List.mem_range.1 hi
    by_cases hit : i = t
    · subst hit
      simp [hJ]
    · have : dropLookaheads (ccolGet gr dfa i) ≠ dropLookaheads J := by
        intro hcon
        exact hit (hcores i t hin ht (hcon.trans hJ.symm))
      simp [this, hit]
  rw [hcongr, range_filter_decide_eq ht]
  rfl

/-! ### The LR(0)-automaton contract -/

/-- The symbols appearing immediately after a dot in a state. -/
def dotSyms (gr : Grammar) (st : List Item) : Finset Sym :=
  st.toFinset.biUnion fun it => ((gr.prodBody it.1)[it.2]?).toFinset

/-- Modelled from the spec: the contract tying the external LR(0)
automaton to the grammar and the computed canonical collection —
state 0 exists with the single kernel start item; item dots stay within
their bodies; distinct states have distinct item sets (the merge
invariant); every state's core agrees with its canonical-collection
entry (the invariant §7 of the spec demands); the transition dictionary
is total on symbols occurring after a dot and sound (each recorded
transition moves the matching items one step, targeting the state whose
kernels are exactly the advanced items); and every kernel item ends the
propagation with at least one lookahead. -/
structure Consistent (gr : Grammar) (dfa : Dfa) : Prop where
  nstates_pos : 0 < dfa.n
  kernel0 : kstatesFn dfa 0 = [(0, 0)]
  items_wf : ∀ st ∈ dfa.states, ∀ it ∈ st, it.2 ≤ (gr.prodBody it.1).length
  cores_nodup : (dfa.states.map List.toFinset).Nodup
  core_agree : ∀ s < dfa.n, dropLookaheads (ccolGet gr dfa s) = (dfa.stateD s).toFinset
  trans_total : ∀ s < dfa.n, ∀ X ∈ dotSyms gr (dfa.stateD s),
    (dfa.gotoFind (s, X)).getD dfa.n < dfa.n ∧
      (kstatesFn dfa ((dfa.gotoFind (s, X)).getD dfa.n)).toFinset =
        advCore gr (dfa.stateD s).toFinset X
  trans_sound : ∀ pr ∈ dfa.gotoPairs,
    pr.1.1 < dfa.n ∧ (advCore gr (dfa.stateD pr.1.1).toFinset pr.1.2).Nonempty
  kernel_la : ∀ s < dfa.n, ∀ k ∈ kstatesFn dfa s,
    (lookaheadTable gr dfa (s, k)).Nonempty

theorem stateD_mem {dfa : Dfa} {s : Nat} (hs : s < dfa.n) : dfa.stateD s ∈ dfa.states := by
  unfold Dfa.stateD
  have hs' : s < dfa.states.length := hs
  rw [List.getD_eq_getElem _ _ hs']
  exact List.getElem_mem hs'

theorem advCore_nonempty_dotSym {gr : Grammar} {st : List Item} {X : Sym}
    (hitems : ∀ it ∈ st, it.2 ≤ (gr.prodBody it.1).length)
    (h : (advCore gr st.toFinset X).Nonempty) : X ∈ dotSyms gr st := by
  obtain ⟨q, hq⟩ := h
  rw [advCore, Finset.mem_image] at hq
  obtain ⟨it, hit, rfl⟩ := hq
  rw [Finset.mem_filter] at hit
  obtain ⟨hmem, hne, hget⟩ := hit
  have hlt : it.2 < (gr.prodBody it.1).length :=
    lt_of_le_of_ne (hitems it (List.mem_toFinset.1 hmem)) hne
  rw [dotSyms, Finset.mem_biUnion]
  refine ⟨it, hmem, ?_⟩
  rw [List.getD_eq_getElem _ _ hlt] at hget
  rw [List.getElem?_eq_getElem hlt]
  simp [hget]

/-- With every kernel item carrying at least one resolved lookahead, the
core of the kernel-seed set of a state is exactly its kernel set. -/
theorem core_kernelSeeds {gr : Grammar} {dfa : Dfa} (hc : Consistent gr dfa) {s : Nat}
    (hs : s < dfa.n) :
    dropLookaheads ((kstatesFn dfa s).toFinset.biUnion fun k =>
        (lookaheadTable gr dfa (s, k)).image fun sym => (k, sym)) =
      (kstatesFn dfa s).toFinset := by
  ext q
  simp only [dropLookaheads, Finset.mem_image, Finset.mem_biUnion]
  constructor
  · rintro ⟨x, ⟨k, hk, hx⟩, rfl⟩
    obtain ⟨a, _, hax⟩ := hx
    rw [← hax]
    exact hk
  · intro hq
    obtain ⟨a, ha⟩ := hc.kernel_la s hs q (List.mem_toFinset.1 hq)
    exact ⟨(q, a), ⟨q, hq, ⟨a, ha, rfl⟩⟩, rfl⟩

/-- The central resolution theorem: every nonempty `goto` of a
canonical-collection state matches, by core, the automaton's target
state's collection entry. -/
theorem goto_core_eq {gr : Grammar} {dfa : Dfa} (hwf : GrammarWF gr)
    (hc : Consistent gr dfa) {s : Nat} (hs : s < dfa.n) {X : Sym}
    (hne : (goto gr (ccolGet gr dfa s) X).Nonempty) :
    ∃ t, dfa.gotoFind (s, X) = some t ∧ t < dfa.n ∧
      dropLookaheads (goto gr (ccolGet gr dfa s) X) =
        dropLookaheads (ccolGet gr dfa t) := by
  have hA : (advSet gr (ccolGet gr dfa s) X).Nonempty := by
    rcases Finset.eq_empty_or_nonempty (advSet gr (ccolGet gr dfa s) X) with h | h
    · rw [goto, h, closure_empty] at hne
      exact absurd hne (by simp)
    · exact h
  have hcoreA : dropLookaheads (advSet gr (ccolGet gr dfa s) X) =
      advCore gr (dfa.stateD s).toFinset X := by
    rw [dropLookaheads_advSet, hc.core_agree s hs]
  have hAC : (advCore gr (dfa.stateD s).toFinset X).Nonempty := by
    rw [← hcoreA]
    obtain ⟨x, hx⟩ := hA
    exact ⟨x.1, Finset.mem_image.2 ⟨x, hx, rfl⟩⟩
  have hX : X ∈ dotSyms gr (dfa.stateD s) :=
    advCore_nonempty_dotSym (fun it hit => hc.items_wf _ (stateD_mem hs) it hit) hAC
  have htrans := hc.trans_total s hs X hX
  rcases hfind : dfa.gotoFind (s, X) with _ | t
  · rw [hfind] at htrans
    simp at htrans
  · rw [hfind] at htrans
    simp only [Option.getD_some] at htrans
    obtain ⟨htn, hker⟩ := htrans
    refine ⟨t, rfl, htn, ?_⟩
    rw [goto, ccolGet_eq htn]
    refine core_closure_congr hwf ?_
    rw [hcoreA, core_kernelSeeds hc htn, hker]

theorem gotoFind_mem {dfa : Dfa} {k : Nat × Sym} {t : Nat}
    (h : dfa.gotoFind k = some t) : ((k, t) : (Nat × Sym) × Nat) ∈ dfa.gotoPairs := by
  unfold Dfa.gotoFind at h
  rcases hf : dfa.gotoPairs.find? (fun pr => decide (pr.1 = k)) with _ | pr
  · rw [hf] at h; simp at h
  · rw [hf] at h
    simp only [Option.map_some'] at h
    have hmem := List.mem_of_find?_eq_some hf
    have hkey' := List.find?_some hf
    have hkey : pr.1 = k := of_decide_eq_true hkey'
    have ht : pr.2 = t := Option.some.inj h
    have : ((k, t) : (Nat × Sym) × Nat) = pr := by
      rw [← hkey, ← ht]
    rw [this]
    exact hmem

/-- A nonempty `goto` of a state and a recorded automaton transition see
the same items: one is empty exactly when the other is missing. -/
theorem goto_empty_iff_find {gr : Grammar} {dfa : Dfa} (hwf : GrammarWF gr)
    (hc : Consistent gr dfa) {s : Nat} (hs : s < dfa.n) {X : Sym} :
    goto gr (ccolGet gr dfa s) X = ∅ ↔ dfa.gotoFind (s, X) = none := by
  constructor
  · intro h
    rcases hfind : dfa.gotoFind (s, X) with _ | t
    · rfl
    · have hmem := gotoFind_mem hfind
      have hAC := (hc.trans_sound _ hmem).2
      have hcoreA : dropLookaheads (advSet gr (ccolGet gr dfa s) X) =
          advCore gr (dfa.stateD s).toFinset X := by
        rw [dropLookaheads_advSet, hc.core_agree s hs]
      rw [goto_eq_empty_iff] at h
      rw [h] at hcoreA
      rw [dropLookaheads, Finset.image_empty] at hcoreA
      obtain ⟨q, hq⟩ := hAC
      rw [← hcoreA] at hq
      exact absurd hq (Finset.not_mem_empty _)
  · intro h
    rcases Finset.eq_empty_or_nonempty (goto gr (ccolGet gr dfa s) X) with he | hne
    · exact he
    · obtain ⟨t, hfind, _, _⟩ := goto_core_eq hwf hc hs hne
      rw [h] at hfind
      exact absurd hfind (by simp)

theorem ccol_cores_inj {gr : Grammar} {dfa : Dfa} (hc : Consistent gr dfa) :
    ∀ i j, i < dfa.n → j < dfa.n →
      dropLookaheads (ccolGet gr dfa i) = dropLookaheads (ccolGet gr dfa j) → i = j := by
  intro i j hi hj h
  rw [hc.core_agree i hi, hc.core_agree j hj] at h
  have hi' : i < dfa.states.length := hi
  have hj' : j < dfa.states.length := hj
  have hi2 : i < (dfa.states.map List.toFinset).length := by simpa using hi'
  have hj2 : j < (dfa.states.map List.toFinset).length := by simpa using hj'
  have hmap : (dfa.states.map List.toFinset)[i] = (dfa.states.map List.toFinset)[j] := by
    rw [List.getElem_map, List.getElem_map]
    unfold Dfa.stateD at h
    rw [List.getD_eq_getElem _ _ hi', List.getD_eq_getElem _ _ hj'] at h
    exact h
  have := hc.cores_nodup.getElem_inj_iff.1 hmap
  exact this

/-! ### Concrete instances -/

/-- Modelled from the spec: a concrete `first_set` computation from
per-nonterminal nullability and FIRST tables, following the Grammar
collaborator contract (terminals that can begin a derivation of the
sequence; `none` is the empty-derivation marker). -/
def firstSeq (nullable : Nat → Bool) (fnt : Nat → Finset String) :
    List Sym → Finset (Option String)
  | [] => {none}
  | Sym.t a :: _ => {some a}
  | Sym.n k :: rest =>
    (fnt k).image some ∪ (if nullable k then firstSeq nullable fnt rest else ∅)

theorem firstSeq_bound (nullable : Nat → Bool) (fnt : Nat → Finset String)
    (terms : List String) (hf : ∀ k a, a ∈ fnt k → a ∈ terms) :
    ∀ seq a, some a ∈ firstSeq nullable fnt seq → a ∈ terms ∨ Sym.t a ∈ seq := by
  intro seq
  induction seq with
  | nil => intro a ha; simp [firstSeq] at ha
  | cons s rest ih =>
    intro a ha
    cases s with
    | t b =>
      simp only [firstSeq, Finset.mem_singleton, Option.some.injEq] at ha
      right
      rw [ha]
      exact List.mem_cons_self _ _
    | n k =>
      simp only [firstSeq, Finset.mem_union] at ha
      rcases ha with h | h
      · rw [Finset.mem_image] at h
        obtain ⟨b, hb, hba⟩ := h
        left
        have hab : b = a := Option.some.inj hba
        exact hf k a (hab ▸ hb)
      · split at h
        · rcases ih a h with h' | h'
          · left; exact h'
          · right; exact List.mem_cons_of_mem _ h'
        · exact absurd h (Finset.not_mem_empty _)

/-- Example grammar 1: augmented `S' → S`, `S → a` (nonterminal ids
`S' = 0`, `S = 1`). -/
def exGr1 : Grammar :=
  { productions := [(0, [Sym.n 1]), (1, [Sym.t "a"])]
    terminals := ["a"]
    nonterms := [0, 1]
    numProds := fun k => if k < 2 then 1 else 0
    nonterm_offset := fun k => k
    eoi := "$"
    free := "#"
    firstSet := firstSeq (fun _ => false) (fun k => if k < 2 then {"a"} else ∅) }

/-- The LR(0) automaton of `exGr1`. -/
def exDfa1 : Dfa :=
  { states := [[(0, 0), (1, 0)], [(0, 1)], [(1, 1)]]
    gotoPairs := [((0, Sym.n 1), 1), ((0, Sym.t "a"), 2)] }

theorem exGr1_wf : GrammarWF exGr1 := by
  refine ⟨?_, ?_, ?_, ?_, ?_, ?_, ?_, ?_⟩
  · intro seq t ht
    refine firstSeq_bound _ _ ["a"] ?_ seq t ht
    intro k a ha
    by_cases hk : k < 2 <;> simp [hk] at ha <;> simp [ha]
  · intro p d la
    rcases p with _ | _ | p <;> rcases d with _ | d
    · exact ⟨"a", by simp [exGr1, Grammar.prodBody, firstSeq]⟩
    · exact ⟨la, by simp [exGr1, Grammar.prodBody, firstSeq, List.drop_succ_cons]⟩
    · exact ⟨"a", by simp [exGr1, Grammar.prodBody, firstSeq]⟩
    · exact ⟨la, by simp [exGr1, Grammar.prodBody, firstSeq, List.drop_succ_cons]⟩
    · exact ⟨la, by simp [exGr1, Grammar.prodBody, firstSeq, List.getD_cons_succ, List.getD_nil]⟩
    · exact ⟨la, by simp [exGr1, Grammar.prodBody, firstSeq, List.getD_cons_succ, List.getD_nil]⟩
  · intro pr hpr a ha
    simp only [exGr1, List.mem_cons, List.not_mem_nil, or_false] at hpr
    rcases hpr with h | h <;> subst h <;> simp at ha <;> simp [exGr1, ha]
  · decide
  · decide
  · decide
  · decide
  · decide

theorem exCons1 : Consistent exGr1 exDfa1 := by
  refine ⟨?_, ?_, ?_, ?_, ?_, ?_, ?_, ?_⟩ <;> decide

/-- Example grammar 2: augmented `S' → S`, `S → S` (a cyclic unit
production; `S` derives no terminal string). -/
def exGr2 : Grammar :=
  { productions := [(0, [Sym.n 1]), (1, [Sym.n 1])]
    terminals := []
    nonterms := [0, 1]
    numProds := fun k => if k < 2 then 1 else 0
    nonterm_offset := fun k => k
    eoi := "$"
    free := "#"
    firstSet := firstSeq (fun _ => false) (fun _ => ∅) }

/-- The LR(0) automaton of `exGr2`. -/
def exDfa2 : Dfa :=
  { states := [[(0, 0), (1, 0)], [(0, 1), (1, 1)]]
    gotoPairs := [((0, Sym.n 1), 1)] }

theorem dot_getD_mem {l : List Sym} {d : Nat} {s : Sym} (hlt : d < l.length)
    (h : l.getD d (Sym.t "") = s) : s ∈ l := by
  rw [List.getD_eq_getElem _ _ hlt] at h
  rw [← h]
  exact List.getElem_mem hlt

/-! ### The claims -/

/-- C1: for every state `s` and item `(item, lookahead)` of the canonical
collection: a terminal `T` after the dot records `shift` to the state id
resolved by core match of `goto(gr, ccol[s], T)` in `action[s][T]`; a
completed item of a production other than 0 records
`reduce prod_index` in `action[s][lookahead]`; and every ACTION entry
arises from one of the three terminal/completed branches — transitions on
nonterminals are never recorded in ACTION. -/
theorem C1_action_construction {gr : Grammar} (dfa : Dfa) :
    (∀ s, ∀ x ∈ ccolGet gr dfa s, ∀ T,
        x.1.2 < (gr.prodBody x.1.1).length →
        (gr.prodBody x.1.1).getD x.1.2 (Sym.t "") = Sym.t T →
        Entry.shift (id_from_lr_one_state gr dfa (goto gr (ccolGet gr dfa s) (Sym.t T))) ∈
          actionTable gr dfa s T) ∧
      (∀ s, ∀ x ∈ ccolGet gr dfa s,
        ¬ x.1.2 < (gr.prodBody x.1.1).length → x.1.1 ≠ 0 →
        Entry.reduce x.1.1 ∈ actionTable gr dfa s x.2) ∧
      (∀ s t e, e ∈ actionTable gr dfa s t →
        ∃ x ∈ ccolGet gr dfa s,
          (∃ T, x.1.2 < (gr.prodBody x.1.1).length ∧
              (gr.prodBody x.1.1).getD x.1.2 (Sym.t "") = Sym.t T ∧ T = t ∧
              e = Entry.shift
                (id_from_lr_one_state gr dfa (goto gr (ccolGet gr dfa s) (Sym.t T)))) ∨
          (¬ x.1.2 < (gr.prodBody x.1.1).length ∧ x.1.1 = 0 ∧ t = gr.eoi ∧
            e = Entry.accept) ∨
          (¬ x.1.2 < (gr.prodBody x.1.1).length ∧ x.1.1 ≠ 0 ∧ x.2 = t ∧
            e = Entry.reduce x.1.1)) := by
  refine ⟨?_, ?_, ?_⟩
  · intro s x hx T hlt hT
    exact mem_actionTable.2 ⟨x, hx, Or.inl ⟨T, hlt, hT,
      goto_ne_empty_of_dot hx hlt hT, rfl, rfl⟩⟩
  · intro s x hx hlt h0
    exact mem_actionTable.2 ⟨x, hx, Or.inr (Or.inr ⟨hlt, h0, rfl, rfl⟩)⟩
  · intro s t e he
    obtain ⟨x, hx, hcase⟩ := mem_actionTable.1 he
    refine ⟨x, hx, ?_⟩
    rcases hcase with ⟨T, h1, h2, _, h4, h5⟩ | h | h
    · exact Or.inl ⟨T, h1, h2, h4, h5⟩
    · exact Or.inr (Or.inl h)
    · exact Or.inr (Or.inr h)

/-- Witness for `C1_action_construction`: the concrete shift entry of
`exGr1` in state 0 on terminal `a`. -/
theorem C1_action_construction_witness :
    ((1, 0), "$") ∈ ccolGet exGr1 exDfa1 0 ∧
      Entry.shift (id_from_lr_one_state exGr1 exDfa1
        (goto exGr1 (ccolGet exGr1 exDfa1 0) (Sym.t "a"))) ∈
        actionTable exGr1 exDfa1 0 "a" :=
  ⟨by decide, (@C1_action_construction exGr1 exDfa1).1 0 ((1, 0), "$") (by decide) "a"
    (by decide) (by decide)⟩

/-- C2: the propagation loop is monotone (lookahead sets only grow in a
pass), bounded by the terminal alphabet plus end-of-input, and reaches
its fixed point within `propFuel = (kernel-item count) × (alphabet size)
+ 1` passes — extra passes no longer change the table. -/
theorem C2_propagation_terminates {gr : Grammar} (dfa : Dfa) (hwf : GrammarWF gr) :
    (∀ L c, L c ⊆ pass gr dfa L c) ∧
      (∀ c ∈ cellFinset dfa, lookaheadTable gr dfa c ⊆ alphaBound gr) ∧
      (∀ c ∈ cellFinset dfa,
        pass gr dfa (lookaheadTable gr dfa) c = lookaheadTable gr dfa c) ∧
      (∀ extra, propagateAux gr dfa (propFuel gr dfa + extra) (initTable gr dfa) =
        lookaheadTable gr dfa) :=
  ⟨fun L c => le_pass gr dfa L c, lookaheadTable_bound hwf, lookaheadTable_stable hwf,
    propagateAux_extra hwf⟩

/-- Witness for `C2_propagation_terminates` on `exGr1`. -/
theorem C2_propagation_terminates_witness :
    (0, (0, 0)) ∈ cellFinset exDfa1 ∧
      lookaheadTable exGr1 exDfa1 (0, (0, 0)) ⊆ alphaBound exGr1 ∧
      pass exGr1 exDfa1 (lookaheadTable exGr1 exDfa1) (0, (0, 0)) =
        lookaheadTable exGr1 exDfa1 (0, (0, 0)) :=
  ⟨by decide,
    (C2_propagation_terminates exDfa1 exGr1_wf).2.1 _ (by decide),
    (C2_propagation_terminates exDfa1 exGr1_wf).2.2.1 _ (by decide)⟩

/-- C3: `closure` is extensive, closed under the expansion rule, least
among closed supersets, and its fuelled worklist loop has converged at
the canonical fuel (extra fuel changes nothing). -/
theorem C3_closure_least_fixed_point {gr : Grammar} (hwf : GrammarWF gr)
    (I : Finset LItem) :
    I ⊆ closure gr I ∧ IsClosed gr (closure gr I) ∧
      (∀ T, I ⊆ T → IsClosed gr T → closure gr I ⊆ T) ∧
      ∀ extra, closureAux gr (closureFuel gr I + extra) I I = closure gr I :=
  ⟨closure_extensive gr I, closure_isClosed hwf I,
    fun _ hIT hT => closure_minimal gr hIT hT, (closure_fix hwf I).2⟩

/-- Witness for `C3_closure_least_fixed_point` on `exGr1`. -/
theorem C3_closure_least_fixed_point_witness :
    ({((0, 0), "$")} : Finset LItem) ⊆ closure exGr1 {((0, 0), "$")} ∧
      IsClosed exGr1 (closure exGr1 {((0, 0), "$")}) :=
  ⟨(C3_closure_least_fixed_point exGr1_wf {((0, 0), "$")}).1,
    (C3_closure_least_fixed_point exGr1_wf {((0, 0), "$")}).2.1⟩

/-- C4: after the fixed point, the start kernel item `(0, 0)` of state 0
holds exactly the end-of-input lookahead — in the propagation table and
in the assembled canonical-collection entry of state 0. -/
theorem C4_start_lookahead {gr : Grammar} {dfa : Dfa} (hwf : GrammarWF gr)
    (hn : 0 < dfa.n) (hk : kstatesFn dfa 0 = [(0, 0)]) :
    lookaheadTable gr dfa (0, (0, 0)) = {gr.eoi} ∧
      ((ccolGet gr dfa 0).filter fun x => x.1 = (0, 0)).image Prod.snd = {gr.eoi} := by
  refine ⟨lookaheadTable_start dfa, ?_⟩
  ext a
  simp only [Finset.mem_image, Finset.mem_filter, Finset.mem_singleton]
  constructor
  · rintro ⟨x, ⟨hx, hx0⟩, rfl⟩
    exact ccol_prod0_eoi hwf hx (by rw [hx0])
  · intro ha
    refine ⟨((0, 0), gr.eoi), ⟨?_, rfl⟩, ha.symm⟩
    rw [ccolGet_eq hn]
    refine closure_extensive _ _ ?_
    rw [Finset.mem_biUnion]
    refine ⟨(0, 0), by rw [hk]; simp, ?_⟩
    rw [Finset.mem_image]
    refine ⟨gr.eoi, ?_, rfl⟩
    rw [lookaheadTable_start]
    simp

/-- Witness for `C4_start_lookahead` on `exGr1`. -/
theorem C4_start_lookahead_witness :
    lookaheadTable exGr1 exDfa1 (0, (0, 0)) = {exGr1.eoi} ∧
      ((ccolGet exGr1 exDfa1 0).filter fun x => x.1 = (0, 0)).image Prod.snd =
        {exGr1.eoi} :=
  C4_start_lookahead exGr1_wf (by decide) (by decide)

/-- C5 as frozen is false: in `exGr2` (augmented `S' → S` with the unit
production `S → S`) state 1 holds both the completed start item and the
completed item of production 1, each with end-of-input lookahead, so the
accept cell also contains a reduce entry. -/
theorem C5_counterexample :
    Entry.accept ∈ actionTable exGr2 exDfa2 1 "$" ∧
      Entry.reduce 1 ∈ actionTable exGr2 exDfa2 1 "$" := by decide

/-- C5 amended: every accept entry sits in the end-of-input column,
arises from a completed item of production 0, and no shift entry shares
that cell (a reduce entry can share it, witness `C5_counterexample`). -/
theorem C5_accept_amended {gr : Grammar} {dfa : Dfa} (hwf : GrammarWF gr) :
    ∀ s t, Entry.accept ∈ actionTable gr dfa s t →
      t = gr.eoi ∧
        (∃ x ∈ ccolGet gr dfa s, x.1.1 = 0 ∧ ¬ x.1.2 < (gr.prodBody x.1.1).length) ∧
        ∀ k, Entry.shift k ∉ actionTable gr dfa s t := by
  intro s t he
  obtain ⟨x, hx, hcase⟩ := mem_actionTable.1 he
  rcases hcase with ⟨T, _, _, _, _, h5⟩ | ⟨hlt, h0, hte, _⟩ | ⟨_, _, _, h5⟩
  · exact absurd h5 (by simp)
  · refine ⟨hte, ⟨x, hx, h0, hlt⟩, ?_⟩
    intro k hk
    obtain ⟨y, _, hycase⟩ := mem_actionTable.1 hk
    rcases hycase with ⟨T, hylt, hyT, _, hyTt, _⟩ | ⟨_, _, _, h5⟩ | ⟨_, _, _, h5⟩
    · have hmem : Sym.t gr.eoi ∈ gr.prodBody y.1.1 := by
        have hTmem := dot_getD_mem hylt hyT
        rw [hyTt, hte] at hTmem
        exact hTmem
      exact hwf.eoi_fresh (mem_prodBody_terminal hwf hmem)
    · exact absurd h5 (by simp)
    · exact absurd h5 (by simp)
  · exact absurd h5 (by simp)

/-- Witness for `C5_accept_amended` at the accept cell of `exGr1`. -/
theorem C5_accept_amended_witness :
    Entry.accept ∈ actionTable exGr1 exDfa1 1 "$" ∧ ("$" : String) = exGr1.eoi :=
  ⟨by decide, (@C5_accept_amended exGr1 exDfa1 exGr1_wf 1 "$" (by decide)).1⟩

/-- C6: in every canonical-collection state, a completed item of
production 0 carries the end-of-input lookahead — the assertion
`next_symbol == gr.end_of_input()` can never fail. -/
theorem C6_accept_assert_safe {gr : Grammar} (dfa : Dfa) (hwf : GrammarWF gr) :
    ∀ s d la, ((0, d), la) ∈ ccolGet gr dfa s →
      ¬ d < (gr.prodBody 0).length → la = gr.eoi :=
  fun _ _ _ hx _ => ccol_prod0_eoi hwf hx rfl

/-- Witness for `C6_accept_assert_safe` at the accept state of `exGr1`. -/
theorem C6_accept_assert_safe_witness :
    ((0, 1), "$") ∈ ccolGet exGr1 exDfa1 1 ∧ ("$" : String) = exGr1.eoi :=
  ⟨by decide, C6_accept_assert_safe exDfa1 exGr1_wf 1 1 "$" (by decide) (by decide)⟩

/-- C7: `goto[s][nt]` is `None` exactly when the automaton records no
transition from `s` on `nt`; when a transition to `t` is recorded,
`goto[s][nt] = t`. -/
theorem C7_goto_none_iff {gr : Grammar} {dfa : Dfa} (hwf : GrammarWF gr)
    (hc : Consistent gr dfa) :
    ∀ s < dfa.n, ∀ nt ∈ gr.nonterms.tail,
      (gotoTable gr dfa s nt = none ↔ dfa.gotoFind (s, Sym.n nt) = none) ∧
        ∀ t, dfa.gotoFind (s, Sym.n nt) = some t → gotoTable gr dfa s nt = some t := by
  intro s hs nt _
  have hiff : gotoTable gr dfa s nt = none ↔
      goto gr (ccolGet gr dfa s) (Sym.n nt) = ∅ := by
    unfold gotoTable
    by_cases h : goto gr (ccolGet gr dfa s) (Sym.n nt) = ∅
    · simp [h]
    · simp [h]
  refine ⟨hiff.trans (goto_empty_iff_find hwf hc hs), ?_⟩
  intro t hfind
  have hne : goto gr (ccolGet gr dfa s) (Sym.n nt) ≠ ∅ := by
    intro h
    rw [(goto_empty_iff_find hwf hc hs).1 h] at hfind
    exact absurd hfind (by simp)
  obtain ⟨t', hfind', htn', hcore⟩ :=
    goto_core_eq hwf hc hs (Finset.nonempty_iff_ne_empty.2 hne)
  have htt : t' = t := by
    rw [hfind'] at hfind
    exact Option.some.inj hfind
  subst htt
  unfold gotoTable
  rw [if_neg hne]
  congr 1
  exact id_from_eq htn' (ccol_cores_inj hc) hcore.symm

/-- Witness for `C7_goto_none_iff` on `exGr1`: the recorded transition on
`S` out of state 0 and the absent one out of state 1. -/
theorem C7_goto_none_iff_witness :
    gotoTable exGr1 exDfa1 0 1 = some 1 ∧ gotoTable exGr1 exDfa1 1 1 = none :=
  ⟨(C7_goto_none_iff exGr1_wf exCons1 0 (by decide) 1 (by decide)).2 1 (by decide),
    (C7_goto_none_iff exGr1_wf exCons1 1 (by decide) 1 (by decide)).1.2 (by decide)⟩

/-- C9: every nonempty `goto` of a canonical-collection state has the
core of some collection state, so the `id_from_core` lookup in
`id_from_lr_one_state` always succeeds. -/
theorem C9_core_resolution {gr : Grammar} {dfa : Dfa} (hwf : GrammarWF gr)
    (hc : Consistent gr dfa) :
    ∀ s < dfa.n, ∀ X, (goto gr (ccolGet gr dfa s) X).Nonempty →
      ∃ t < dfa.n, dropLookaheads (goto gr (ccolGet gr dfa s) X) =
        dropLookaheads (ccolGet gr dfa t) := by
  intro s hs X hne
  obtain ⟨t, _, htn, hcore⟩ := goto_core_eq hwf hc hs hne
  exact ⟨t, htn, hcore⟩

/-- Witness for `C9_core_resolution` on `exGr1`. -/
theorem C9_core_resolution_witness :
    (goto exGr1 (ccolGet exGr1 exDfa1 0) (Sym.t "a")).Nonempty ∧
      ∃ t < exDfa1.n, dropLookaheads (goto exGr1 (ccolGet exGr1 exDfa1 0) (Sym.t "a")) =
        dropLookaheads (ccolGet exGr1 exDfa1 t) :=
  ⟨by decide, C9_core_resolution exGr1_wf exCons1 0 (by decide) (Sym.t "a") (by decide)⟩

/-- C8: the free/wildcard marker never appears as a lookahead in the
canonical collection, and the ACTION column of the free marker is
everywhere empty. -/
theorem C8_free_never_leaks {gr : Grammar} (dfa : Dfa) (hwf : GrammarWF gr) :
    (∀ s, ∀ x ∈ ccolGet gr dfa s, x.2 ≠ gr.free) ∧
      (∀ s, actionTable gr dfa s gr.free = ∅) := by
  refine ⟨fun s x hx => ccol_no_free hwf hx, ?_⟩
  intro s
  rw [Finset.eq_empty_iff_forall_not_mem]
  intro e he
  obtain ⟨x, hx, hcase⟩ := mem_actionTable.1 he
  rcases hcase with ⟨T, hlt, hT, _, hTt, _⟩ | ⟨_, _, hte, _⟩ | ⟨_, _, hxt, _⟩
  · have hmem : Sym.t gr.free ∈ gr.prodBody x.1.1 := by
      have hTmem := dot_getD_mem hlt hT
      rw [hTt] at hTmem
      exact hTmem
    exact hwf.free_fresh (mem_prodBody_terminal hwf hmem)
  · exact hwf.free_ne_eoi hte
  · exact ccol_no_free hwf hx hxt

/-- Witness for `C8_free_never_leaks` on `exGr1`. -/
theorem C8_free_never_leaks_witness :
    actionTable exGr1 exDfa1 0 exGr1.free = ∅ :=
  (C8_free_never_leaks exDfa1 exGr1_wf).2 0

/-- C10: `closure` is extensive and idempotent, and `goto` results are
already closed — re-applying `closure` changes nothing. -/
theorem C10_closure_extensive_idempotent {gr : Grammar} (hwf : GrammarWF gr)
    (I : Finset LItem) (X : Sym) :
    I ⊆ closure gr I ∧ closure gr (closure gr I) = closure gr I ∧
      closure gr (goto gr I X) = goto gr I X :=
  ⟨closure_extensive gr I, closure_idem hwf I, by rw [goto]; exact closure_idem hwf _⟩

/-- Witness for `C10_closure_extensive_idempotent` on `exGr1`. -/
theorem C10_closure_extensive_idempotent_witness :
    closure exGr1 (goto exGr1 {((0, 0), "$")} (Sym.n 1)) =
      goto exGr1 {((0, 0), "$")} (Sym.n 1) :=
  (C10_closure_extensive_idempotent exGr1_wf {((0, 0), "$")} (Sym.n 1)).2.2

end LalrOne
